import Mathlib

/-!
Verification development for the `wiz` dependency resolver.

The Python sources under `source/wiz/` are shallowly embedded below.
Python dictionaries are modelled as insertion-ordered association lists
(`Dict α`): assignment to an existing key updates it in place, assignment
to a fresh key appends, and iteration follows the list order.  Python
sets of identifiers are modelled as duplicate-free lists in insertion
order.  Machine strings are Lean `String`s and the comparison used by
Python's tuple ordering is re-implemented character-wise so that all
definitions evaluate inside the kernel.

The version/requirement algebra comes from the external `packaging`
library, which is not part of the repository: concrete versions are
modelled as naturals (any totally ordered carrier works for the claims
below), the `"unknown"` sentinel as a separate constructor, and a
specifier as a list of (operator, version) clauses, exactly the
interface the repository code uses (`version in specifier`,
`requirement.extras`, `requirement.name`).
-/

namespace Wiz

/-- Python `dict` model: insertion-ordered association list. -/
abbrev Dict (α : Type) := List (String × α)

/-- Lookup, i.e. Python `d.get(k)` / `d[k]`. -/
def dget {α : Type} (d : Dict α) (k : String) : Option α :=
  match d with
  | [] => none
  | (k', v) :: rest => if k' = k then some v else dget rest k

/-- Membership test, i.e. Python `k in d`. -/
def dmem {α : Type} (d : Dict α) (k : String) : Bool :=
  match d with
  | [] => false
  | (k', _) :: rest => if k' = k then true else dmem rest k

/-- Python `d[k] = v`: update in place when the key exists, else append. -/
def dset {α : Type} (d : Dict α) (k : String) (v : α) : Dict α :=
  match d with
  | [] => [(k, v)]
  | (k', v') :: rest => if k' = k then (k, v) :: rest else (k', v') :: dset rest k v

/-- Python `del d[k]` (total: deleting an absent key is the identity here,
while Python raises `KeyError`; all uses below are on present keys). -/
def ddel {α : Type} (d : Dict α) (k : String) : Dict α :=
  match d with
  | [] => []
  | (k', v') :: rest => if k' = k then rest else (k', v') :: ddel rest k

/-- Python `d.keys()` in iteration order. -/
def dkeys {α : Type} (d : Dict α) : List String := d.map (·.1)

/-- Python `d.values()` in iteration order. -/
def dvalues {α : Type} (d : Dict α) : List α := d.map (·.2)

/-- Python 2 character comparison (by code point). -/
def chLt (a b : Char) : Bool := a.toNat < b.toNat

/-- Python 2 lexicographic comparison of strings as character lists. -/
def chListLt : List Char → List Char → Bool
  | [], [] => false
  | [], _ :: _ => true
  | _ :: _, [] => false
  | a :: as, b :: bs =>
    if chLt a b then true
    else if chLt b a then false
    else chListLt as bs

/-- Python 2 `<` on strings. -/
def pyStrLt (a b : String) : Bool := chListLt a.data b.data

/-- Stable insertion of `a` in front of the first element `b` with `le a b`. -/
def stableInsert {α : Type} (le : α → α → Bool) (a : α) : List α → List α
  | [] => [a]
  | b :: l => if le a b then a :: b :: l else b :: stableInsert le a l

/-- Python `sorted`: a stable sort.  `le a b` means "`a` may come before
`b`"; on ties (`le` true both ways) the original order is kept, which is
exactly the stability guarantee of Python's sort. -/
def pySorted {α : Type} (le : α → α → Bool) : List α → List α
  | [] => []
  | a :: l => stableInsert le a (pySorted le l)

/-! ### Version and requirement algebra (external `packaging` library) -/

/-- Version model: either the `wiz.symbol.UNKNOWN_VALUE` sentinel
(`"unknown"`, used when a definition has no `version` key) or a concrete,
totally ordered version rendered here as a natural number. -/
inductive PyVersion where
  | unknown : PyVersion
  | v : Nat → PyVersion
deriving DecidableEq, Repr

/-- String rendering of a version, Python `str(version)`. -/
def versionStr : PyVersion → String
  | .unknown => "unknown"
  | .v n => toString n

/-- Comparison operators appearing in a requirement specifier. -/
inductive SpecOp where
  | eq | ne | lt | le | gt | ge
deriving DecidableEq, Repr

/-- One specifier clause `op version` over concrete versions. -/
def specOpHolds (op : SpecOp) (x bound : Nat) : Bool :=
  match op with
  | .eq => x = bound
  | .ne => x ≠ bound
  | .lt => x < bound
  | .le => x ≤ bound
  | .gt => x > bound
  | .ge => x ≥ bound

/-- A specifier set: a conjunction of clauses.  Membership `version in
specifier` follows `packaging`: a concrete version must satisfy every
clause; the unparseable `"unknown"` sentinel satisfies only the empty
specifier set. -/
structure Specifier where
  clauses : List (SpecOp × Nat)
deriving DecidableEq, Repr

/-- Python `version in specifier`. -/
def specContains (s : Specifier) : PyVersion → Bool
  | .unknown => s.clauses.isEmpty
  | .v n => s.clauses.all fun c => specOpHolds c.1 n c.2

/-- `packaging.requirements.Requirement`: name, specifier set, extras.
Extras are a Python `set` of strings; we keep the insertion list and use
set-equality where the code compares extras. -/
structure Requirement where
  name : String
  specifier : Specifier
  extras : List String
deriving DecidableEq, Repr

/-- Python set equality for extras lists. -/
def setEqb (a b : List String) : Bool :=
  a.all (b.contains ·) && b.all (a.contains ·)

/-! ### Definitions

`wiz/graph.py` accesses a definition through `definition.identifier`,
`definition.version`, `definition.get("variant")` and
`definition.get("requirement")`; the registry model
(`wiz/definition.py`) additionally carries the declared `variants`
(each contributing requirements when selected). -/

/-- A variant entry of a definition (`wiz.definition._Variant`):
identifier plus the requirements it contributes when selected. -/
structure VariantDef where
  identifier : String
  requirements : List Requirement
deriving DecidableEq, Repr

/-- A definition as seen by the resolver. -/
structure Definition where
  identifier : String
  version : PyVersion
  variant : Option String
  requirement : Option (List Requirement)
  variants : List VariantDef
deriving DecidableEq, Repr

/-- `wiz.graph._Node.generate_identifier`:
`"{definition}{variant}=={version}"` with `variant` rendered `[v]`. -/
def generateIdentifier (d : Definition) : String :=
  d.identifier ++ (match d.variant with
    | some var => "[" ++ var ++ "]"
    | none => "") ++ "==" ++ versionStr d.version

/-! ### The requirement graph (`wiz.graph.Graph`) -/

/-- `wiz.graph._Link`: requirement plus weight. -/
structure Link where
  requirement : Requirement
  weight : Nat
deriving DecidableEq, Repr

/-- `wiz.graph._Node` (value view): the encapsulated definition and the
set of parent identifiers (insertion-ordered, duplicate-free). -/
structure GNode where
  definition : Definition
  parent_identifiers : List String
deriving DecidableEq, Repr

/-- `wiz.graph.Graph`: node map, definition map (node-identifier sets per
definition identifier), variant map (variant groups per hashed key) and
link map (per parent, a dict child ↦ link). -/
structure Graph where
  node_mapping : Dict GNode
  definition_mapping : Dict (List String)
  variant_mapping : Dict (List String)
  link_mapping : Dict (Dict Link)
deriving DecidableEq, Repr

/-- `Graph.ROOT`. -/
def ROOT : String := "root"

/-- `Graph._node_exists`. -/
def nodeExists (g : Graph) (identifier : String) : Bool :=
  dmem g.node_mapping identifier

/-- `Graph.node_identifiers`. -/
def nodeIdentifiers (g : Graph) : List String := dkeys g.node_mapping

/-- `Graph.node`. -/
def gnode (g : Graph) (identifier : String) : Option GNode :=
  dget g.node_mapping identifier

/-- `Graph.outcoming`: children recorded in the link map, filtered to
live nodes. -/
def outcoming (g : Graph) (identifier : String) : List String :=
  (dkeys ((dget g.link_mapping identifier).getD [])).filter
    fun child => nodeExists g child

/-- `Graph.link_weight` (the link is present at every call site; a
missing link yields the default 0 where Python would raise `KeyError`). -/
def linkWeight (g : Graph) (identifier parent_identifier : String) : Nat :=
  match dget g.link_mapping parent_identifier with
  | none => 0
  | some inner =>
    match dget inner identifier with
    | none => 0
    | some link => link.weight

/-- `Graph.link_requirement` (as an option; present at call sites). -/
def linkRequirement (g : Graph) (identifier parent_identifier : String) :
    Option Requirement :=
  match dget g.link_mapping parent_identifier with
  | none => none
  | some inner => (dget inner identifier).map (·.requirement)

/-- `Graph.variant_groups`: the values of the variant map. -/
def variantGroups (g : Graph) : List (List String) :=
  dvalues g.variant_mapping

/-- `Graph.conflicts`: for every recorded identifier set with more than
one member, emit the members that still exist in the node map. -/
def conflicts (g : Graph) : List String :=
  (dvalues g.definition_mapping).foldl
    (fun acc ids =>
      if ids.length > 1 then acc ++ ids.filter (fun i => nodeExists g i)
      else acc)
    []

/-- `Graph.node_identifiers_from_definition`. -/
def nodeIdentifiersFromDefinition (g : Graph) (definition_identifier : String) :
    List String :=
  ((dget g.definition_mapping definition_identifier).getD []).filter
    fun i => nodeExists g i

/-- `Graph.remove_node`: lazy removal, only the node map shrinks. -/
def removeNode (g : Graph) (identifier : String) : Graph :=
  { g with node_mapping := ddel g.node_mapping identifier }

/-- `Graph.reset_variant_groups`. -/
def resetVariantGroups (g : Graph) : Graph :=
  { g with variant_mapping := [] }

/-! ### Priority computation (`wiz.graph.compute_priority_mapping`)

The function runs Dijkstra-style over a `_PriorityQueue` (a dict whose
pops return the live entry minimising the `(priority, identifier)`
tuple: every live pair is on the heap, stale heap pairs carry a strictly
smaller priority for their key and are skipped, so the heap pop is
exactly the minimum of the dict).  The queue is therefore embedded as
the dict itself with a minimising pop.  The unbounded `while` loop takes
explicit fuel; `none` means the fuel ran out before the queue emptied. -/

/-- Priority-mapping entries: `(priority, parent)`, initially
`(None, None)`. -/
abbrev PMEntry := Option Nat × Option String

/-- The priority mapping. -/
abbrev PMap := Dict PMEntry

/-- Priority recorded for `identifier` (`priority_mapping[identifier][0]`). -/
def pmPriority (pm : PMap) (identifier : String) : Option Nat :=
  match dget pm identifier with
  | none => none
  | some e => e.1

/-- Parent recorded for `identifier` (`priority_mapping[identifier][1]`). -/
def pmParent (pm : PMap) (identifier : String) : Option String :=
  match dget pm identifier with
  | none => none
  | some e => e.2

/-- The queue: the `_PriorityQueue` dict, identifier ↦ priority. -/
abbrev PQueue := Dict Nat

/-- Tuple order `(priority, identifier)` used by the heap. -/
def entryLt (a b : String × Nat) : Bool :=
  a.2 < b.2 || (a.2 = b.2 && pyStrLt a.1 b.1)

/-- Entry of the queue minimising `(priority, identifier)`; `none` on an
empty queue (`_PriorityQueue.pop_smallest` raises `IndexError` there,
which terminates the caller's loop via `queue.empty()` first). -/
def qSmallest (q : PQueue) : Option (String × Nat) :=
  match q with
  | [] => none
  | e :: rest =>
    match qSmallest rest with
    | none => some e
    | some m => if entryLt m e then some m else some e

/-- One relaxation step over child `child` of node `identifier` whose
priority at pop time was `cur` (the body of the `for` loop in
`compute_priority_mapping`). -/
def relaxChild (g : Graph) (identifier : String) (cur : Nat)
    (st : PMap × PQueue) (child : String) : PMap × PQueue :=
  let priority := cur + linkWeight g child identifier
  let last := pmPriority st.1 child
  match last with
  | none => (dset st.1 child (some priority, some identifier), dset st.2 child priority)
  | some lastPriority =>
    if lastPriority < priority then
      (dset st.1 child (some priority, some identifier), dset st.2 child priority)
    else st

/-- The `while not queue.empty()` loop.  Each iteration pops the
smallest entry, reads the popped node's current priority and relaxes
every outcoming child. -/
def dijkstraLoop (g : Graph) : Nat → PMap → PQueue → Option PMap
  | 0, _, _ => none
  | fuel + 1, pm, q =>
    match qSmallest q with
    | none => some pm
    | some (identifier, _) =>
      let q' := ddel q identifier
      let cur := (pmPriority pm identifier).getD 0
      let st := (outcoming g identifier).foldl (relaxChild g identifier cur) (pm, q')
      dijkstraLoop g fuel st.1 st.2

/-- `wiz.graph.compute_priority_mapping` with explicit fuel for the
queue loop. -/
def computePriorityMapping (fuel : Nat) (g : Graph) : Option PMap :=
  let pm0 : PMap := (nodeIdentifiers g).map fun identifier => (identifier, (none, none))
  let pm1 := dset pm0 ROOT (some 0, some ROOT)
  dijkstraLoop g fuel pm1 (dset [] ROOT 0)

/-! ### Edges, paths and the loop invariant -/

/-- An edge of the graph as the relaxation loop sees it: `v` is a live
child recorded under parent `u`, with the recorded link weight. -/
def EdgeW (g : Graph) (u v : String) (w : Nat) : Prop :=
  v ∈ outcoming g u ∧ linkWeight g v u = w

instance (g : Graph) (u v : String) (w : Nat) : Decidable (EdgeW g u v w) :=
  inferInstanceAs (Decidable (_ ∧ _))

/-- A directed path from the synthetic root together with the sum of its
link weights. -/
inductive PathTo (g : Graph) : String → Nat → Prop where
  | root : PathTo g ROOT 0
  | step : ∀ {u v c w}, PathTo g u c → EdgeW g u v w → PathTo g v (c + w)

/-- Invariant of the `compute_priority_mapping` queue loop. -/
structure DijkInv (g : Graph) (pm : PMap) (q : PQueue) : Prop where
  root_prio : pmPriority pm ROOT = some 0
  root_par : pmParent pm ROOT = some ROOT
  parent_edge : ∀ v p, v ≠ ROOT → pmPriority pm v = some p →
    ∃ u w qu, pmParent pm v = some u ∧ EdgeW g u v w ∧
      pmPriority pm u = some qu ∧ p ≤ qu + w
  relaxed : ∀ u qu, pmPriority pm u = some qu → dmem q u = false →
    ∀ v w, EdgeW g u v w → ∃ pv, pmPriority pm v = some pv ∧ qu + w ≤ pv
  queue_pm : ∀ v pv, dget q v = some pv → pmPriority pm v = some pv
  qnodup : (dkeys q).Nodup

/-- Invariant of the relaxation fold inside one loop iteration: `ident`
was popped with priority `cur`, and `rem` is the suffix of its children
not yet relaxed. -/
structure FoldInv (g : Graph) (ident : String) (cur : Nat) (rem : List String)
    (pm : PMap) (q : PQueue) : Prop where
  root_prio : pmPriority pm ROOT = some 0
  root_par : pmParent pm ROOT = some ROOT
  parent_edge : ∀ v p, v ≠ ROOT → pmPriority pm v = some p →
    ∃ u w qu, pmParent pm v = some u ∧ EdgeW g u v w ∧
      pmPriority pm u = some qu ∧ p ≤ qu + w
  others_relaxed : ∀ u qu, u ≠ ident → pmPriority pm u = some qu →
    dmem q u = false →
    ∀ v w, EdgeW g u v w → ∃ pv, pmPriority pm v = some pv ∧ qu + w ≤ pv
  self_pending : ∀ v w, EdgeW g ident v w →
    v ∈ rem ∨ ∃ pv, pmPriority pm v = some pv ∧ cur + w ≤ pv
  self_prio : pmPriority pm ident = some cur ∨ dmem q ident = true
  self_ge : ∃ pi, pmPriority pm ident = some pi ∧ cur ≤ pi
  queue_pm : ∀ v pv, dget q v = some pv → pmPriority pm v = some pv
  qnodup : (dkeys q).Nodup

/-- All link weights in the graph are at least one (true of every graph
the program builds: `update_from_requirements` starts weights at 1). -/
def weightsPositive (g : Graph) : Bool :=
  g.link_mapping.all fun pr => pr.2.all fun cl => 1 ≤ cl.2.weight

/-- The chain of recorded parents from any prioritised node walks back to
the root, every step an edge with `priority(child) ≥ priority(parent) +
weight`. -/
inductive ChainToRoot (g : Graph) (pm : PMap) : String → Prop where
  | root : ChainToRoot g pm ROOT
  | step : ∀ {v u w p qu}, pmParent pm v = some u → EdgeW g u v w →
      pmPriority pm v = some p → pmPriority pm u = some qu → qu + w ≤ p →
      ChainToRoot g pm u → ChainToRoot g pm v

/-! ### Concrete graphs for the priority claims -/

/-- A requirement with an empty specifier, used as link payload. -/
def reqAny (n : String) : Requirement := ⟨n, ⟨[]⟩, []⟩

/-- Example definitions. -/
def defExA : Definition := ⟨"a", .v 1, none, none, []⟩

def defExB : Definition := ⟨"b", .v 1, none, none, []⟩

/-- Diamond graph: `root → a` with weight 1, `root → b` with weight 2,
`b → a` with weight 1.  The two root paths to `a` weigh 1 and 3. -/
def gLongest : Graph :=
  { node_mapping := [("a==1", ⟨defExA, ["root"]⟩), ("b==1", ⟨defExB, ["root"]⟩)]
    definition_mapping := [("a", ["a==1"]), ("b", ["b==1"])]
    variant_mapping := []
    link_mapping :=
      [ ("root", [("a==1", ⟨reqAny "a", 1⟩), ("b==1", ⟨reqAny "b", 2⟩)]),
        ("b==1", [("a==1", ⟨reqAny "a", 1⟩)]) ] }

/-- The mapping `compute_priority_mapping` produces on `gLongest`. -/
def pmLongest : PMap :=
  [("a==1", (some 3, some "b==1")), ("b==1", (some 2, some "root")),
   ("root", (some 0, some "root"))]

/-! ### Ordered extraction (`Resolver.extract_ordered_definitions`)

The sort key is the whole `priority_mapping[identifier]` tuple
`(priority, parent)`, compared with Python 2 semantics: `None` sorts
below every number and every string, numbers by value, strings
lexicographically; the sort is descending (`reverse=True`) and stable. -/

/-- Python 2 `<` on `Option Nat` (`None` below every number). -/
def optNatLt : Option Nat → Option Nat → Bool
  | none, none => false
  | none, some _ => true
  | some _, none => false
  | some a, some b => a < b

/-- Python 2 `<` on `Option String` (`None` below every string). -/
def optStrLt : Option String → Option String → Bool
  | none, none => false
  | none, some _ => true
  | some _, none => false
  | some a, some b => pyStrLt a b

/-- Python 2 `<` on the `(priority, parent)` tuples. -/
def pmKeyLt (a b : PMEntry) : Bool :=
  optNatLt a.1 b.1 || (a.1 = b.1 && optStrLt a.2 b.2)

/-- The sort key `priority_mapping[identifier]` (present for every node
identifier whenever the mapping was computed for this graph). -/
def extractKey (pm : PMap) (i : String) : PMEntry :=
  (dget pm i).getD (none, none)

/-- The comparison used by `sorted(..., reverse=True)`: `i` may come
before `j` iff its key is not smaller. -/
def extractLe (pm : PMap) (i j : String) : Bool :=
  ! pmKeyLt (extractKey pm i) (extractKey pm j)

/-- The sorted identifier list of `extract_ordered_definitions`. -/
def extractSortedIds (g : Graph) (pm : PMap) : List String :=
  pySorted (extractLe pm) (nodeIdentifiers g)

/-- `Resolver.extract_ordered_definitions`. -/
def extractOrderedDefinitions (g : Graph) (pm : PMap) : List Definition :=
  (extractSortedIds g pm).filterMap fun i => (gnode g i).map (·.definition)

/-! ### C2: ordered extraction -/

/-- Example definitions for the extraction tie-break counterexample. -/
def defTA : Definition := ⟨"a", .v 1, none, none, []⟩

def defTB : Definition := ⟨"b", .v 1, none, none, []⟩

def defTC : Definition := ⟨"c", .v 1, none, none, []⟩

/-- Graph whose node map records `c==1` before `a==1` (insertion order)
while the computed priorities tie at 2 with different parents:
`root → a` weight 2, `root → b` weight 1, `b → c` weight 1. -/
def gTie : Graph :=
  { node_mapping := [("c==1", ⟨defTC, ["b==1"]⟩), ("a==1", ⟨defTA, ["root"]⟩),
                     ("b==1", ⟨defTB, ["root"]⟩)]
    definition_mapping := [("a", ["a==1"]), ("b", ["b==1"]), ("c", ["c==1"])]
    variant_mapping := []
    link_mapping :=
      [ ("root", [("a==1", ⟨reqAny "a", 2⟩), ("b==1", ⟨reqAny "b", 1⟩)]),
        ("b==1", [("c==1", ⟨reqAny "c", 1⟩)]) ] }

/-- The priority mapping computed on `gTie`. -/
def pmTie : PMap :=
  [("c==1", (some 2, some "b==1")), ("a==1", (some 2, some "root")),
   ("b==1", (some 1, some "root")), ("root", (some 0, some "root"))]

/-! ### C6: conflict enumeration -/

/-- A node for the conflict example. -/
def defConfl : Definition := ⟨"d", .v 1, none, none, []⟩

/-- Graph whose definition map records two identifiers for `d` but whose
node map retains only one of them (the other was removed lazily). -/
def gConfl : Graph :=
  { node_mapping := [("d==1", ⟨defConfl, ["root"]⟩)]
    definition_mapping := [("d", ["d==1", "d==2"])]
    variant_mapping := []
    link_mapping := [("root", [("d==1", ⟨reqAny "d", 1⟩)])] }

/-! ### C7: variant group enumeration -/

/-- A definition for the variant-group example. -/
def defVarA : Definition := ⟨"a", .v 1, some "V1", none, []⟩

/-- Graph recording a variant group whose member `b==1` is no longer
live. -/
def gVar : Graph :=
  { node_mapping := [("a==1", ⟨defVarA, ["root"]⟩)]
    definition_mapping := [("a", ["a==1"])]
    variant_mapping := [("k", ["a==1", "b==1"])]
    link_mapping := [("root", [("a==1", ⟨reqAny "a", 1⟩)])] }

/-! ### C4: registry query (`wiz.definition.query`) -/

/-- Error taxonomy (subset used by the embedded functions). -/
inductive WizErr where
  | requestNotFound
  | incorrectDefinition
  | graphResolutionError
deriving DecidableEq, Repr

/-- Per-identifier version table: version string ↦ definition. -/
abbrev DefEntry := Dict Definition

/-- The by-package registry index: identifier ↦ version table. -/
abbrev DefMap := Dict DefEntry

/-- Python 2 ordering of the version values found in a table: concrete
versions by value; the `"unknown"` string sentinel compares with
`packaging` `Version` objects by type name (`"str" > "Version"`), hence
above every concrete version.  This order only matters for sorting a
mixed list, which `query` rejects before using it. -/
def pyVersionLt : PyVersion → PyVersion → Bool
  | .unknown, .unknown => false
  | .unknown, .v _ => false
  | .v _, .unknown => true
  | .v a, .v b => a < b

/-- The version values of a table, sorted descending
(`sorted(..., reverse=True)` in `query`). -/
def queryVersions (inner : DefEntry) : List PyVersion :=
  pySorted (fun a b => ! pyVersionLt a b) ((dvalues inner).map (·.version))

/-- The body of the version loop in `query`: look the version string up
and test the stored definition's version against the specifier. -/
def queryPred (req : Requirement) (inner : DefEntry) (ver : PyVersion) : Bool :=
  match dget inner (versionStr ver) with
  | some d => specContains req.specifier d.version
  | none => false

/-- `wiz.definition.query`: best matching definition for a requirement.
The version list is sorted descending; a mix of the unknown sentinel
with concrete versions is refused; then the first (highest) version
whose stored definition satisfies the specifier is returned.  A missing
version-string key is skipped where Python would raise `KeyError`
(impossible for the well-formed tables the registry builds). -/
def query (req : Requirement) (dm : DefMap) : Except WizErr Definition :=
  match dget dm req.name with
  | none => .error .requestNotFound
  | some inner =>
    if decide (PyVersion.unknown ∈ queryVersions inner)
        && decide ((queryVersions inner).length > 1) then
      .error .requestNotFound
    else
      match (queryVersions inner).find? (queryPred req inner) with
      | some ver =>
        match dget inner (versionStr ver) with
        | some d => .ok d
        | none => .error .requestNotFound
      | none => .error .requestNotFound

/-- A well-formed version table: each key is the string of its
definition's version (as `fetch` builds it) and keys are unique. -/
def WfEntry (inner : DefEntry) : Prop :=
  (∀ e ∈ inner, e.1 = versionStr e.2.version) ∧ (dkeys inner).Nodup

/-- Concrete registry entries for the query witness. -/
def defW1 : Definition := ⟨"pkg", .v 1, none, none, []⟩

def defW2 : Definition := ⟨"pkg", .v 2, none, none, []⟩

/-- Version table of `pkg` (highest version first, as `fetch` records). -/
def innerW : DefEntry := [("2", defW2), ("1", defW1)]

/-- By-package registry with the single identifier `pkg`. -/
def dmW : DefMap := [("pkg", innerW)]

/-- Requirement `pkg <= 1`: only version 1 satisfies it. -/
def reqW : Requirement := ⟨"pkg", ⟨[(.le, 1)]⟩, []⟩

instance {ε α : Type} [DecidableEq ε] [DecidableEq α] :
    DecidableEq (Except ε α) := fun x y =>
  match x, y with
  | .ok a, .ok b =>
    if h : a = b then isTrue (by rw [h])
    else isFalse (fun hc => h (Except.ok.inj hc))
  | .error a, .error b =>
    if h : a = b then isTrue (by rw [h])
    else isFalse (fun hc => h (Except.error.inj hc))
  | .ok _, .error _ => isFalse (fun hc => Except.noConfusion hc)
  | .error _, .ok _ => isFalse (fun hc => Except.noConfusion hc)

/-! ### C5: requirement validation during conflict resolution -/

/-- `Resolver.compute_requirement_mapping`: associate each requirement
on an incoming link of `identifier` with its parent, keeping parents
that are live or the root.  Python keys the dict by requirement object
identity (each link holds its own object), so entries never collide; a
missing link is skipped where Python would raise `KeyError`. -/
def computeRequirementMapping (g : Graph) (identifier : String) :
    List (Requirement × String) :=
  match gnode g identifier with
  | none => []
  | some node =>
    (node.parent_identifiers.filter
      (fun p => nodeExists g p || p = ROOT)).filterMap
      (fun p => (linkRequirement g identifier p).map (fun r => (r, p)))

/-- `itertools.combinations(lst, 2)`: all unordered pairs in list
order. -/
def pyCombinations {α : Type} : List α → List (α × α)
  | [] => []
  | x :: rest => rest.map (fun y => (x, y)) ++ pyCombinations rest

/-- The conflict test of `validate_node_requirements` for one pair of
requirements: the versions are incompatible when node1's version fails
requirement2's specifier and node2's version fails requirement1's
specifier; otherwise the extras must agree. -/
def conflictCond (n1 n2 : GNode) (r1 r2 : Requirement) : Bool :=
  (!(specContains r2.specifier n1.definition.version) &&
   !(specContains r1.specifier n2.definition.version))
  || !(setEqb r1.extras r2.extras)

/-- The inner pair loop of `validate_node_requirements`. -/
def validatePairs (n1 n2 : GNode) :
    List (Requirement × Requirement) → Except WizErr Unit
  | [] => .ok ()
  | (r1, r2) :: rest =>
    if conflictCond n1 n2 r1 r2 then .error .graphResolutionError
    else validatePairs n1 n2 rest

/-- The loop over the other conflicting identifiers (a missing node is
skipped where Python would raise `AttributeError`; the caller passes
only live identifiers). -/
def validateAgainst (g : Graph) (n1 : GNode)
    (mapping1 : List (Requirement × String)) :
    List String → Except WizErr Unit
  | [] => .ok ()
  | id2 :: rest =>
    match gnode g id2 with
    | none => validateAgainst g n1 mapping1 rest
    | some n2 =>
      match validatePairs n1 n2
        (pyCombinations (mapping1.map (·.1)
          ++ (computeRequirementMapping g id2).map (·.1))) with
      | .ok _ => validateAgainst g n1 mapping1 rest
      | .error e => .error e

/-- `Resolver.validate_node_requirements`. -/
def validateNodeRequirements (g : Graph) (identifier : String)
    (identifiers : List String) : Except WizErr Unit :=
  match gnode g identifier with
  | none => .ok ()
  | some n1 =>
    validateAgainst g n1 (computeRequirementMapping g identifier) identifiers

/-- Node definitions for the validation counterexample: same definition
identifier `d`, same version 1, two variants. -/
def defDV1 : Definition := ⟨"d", .v 1, some "V1", none, []⟩

def defDV2 : Definition := ⟨"d", .v 1, some "V2", none, []⟩

/-- A requirement `d >= 2` that neither node's version satisfies. -/
def reqGe2 : Requirement := ⟨"d", ⟨[(.ge, 2)]⟩, []⟩

/-- Graph with two live variant nodes of `d` at the same version, each
required from the root by `d >= 2` (no extras). -/
def gValid : Graph :=
  { node_mapping := [("d[V1]==1", ⟨defDV1, ["root"]⟩),
                     ("d[V2]==1", ⟨defDV2, ["root"]⟩)]
    definition_mapping := [("d", ["d[V1]==1", "d[V2]==1"])]
    variant_mapping := []
    link_mapping := [("root", [("d[V1]==1", ⟨reqGe2, 1⟩),
                               ("d[V2]==1", ⟨reqGe2, 2⟩)])] }

/-! ### C3: variant division (`Resolver.divide`)

Graph copies are value copies here (`Graph.copy` duplicates the outer
maps; `divide` only ever applies `remove_node` and
`reset_variant_groups` to the copies, which under the shallow dict copy
touch only the copy's own maps, so value semantics is faithful for this
function).  `remove_node` on an absent key is the identity where Python
would raise `KeyError`; the groups divided below are disjoint, as the
groups recorded per requirement are. -/

/-- One alternative: keep `nid`, remove every other member of the
group. -/
def divideChoice (grp : List String) (nid : String) (g : Graph) : Graph :=
  (grp.filter (fun i => i ≠ nid)).foldl removeNode g

/-- Expansion of the running graph list by one variant group. -/
def divideStep (gl : List Graph) (grp : List String) : List Graph :=
  gl.flatMap fun h => grp.map fun nid => divideChoice grp nid h

/-- The sort key of `divide`: the priority of the group's first member
(`priority_mapping[_group[0]][0]`; an empty group would raise
`IndexError` in Python and keys `none` here — recorded groups are
non-empty). -/
def divideGroupsKey (pm : PMap) (grp : List String) : Option Nat :=
  match grp.head? with
  | some i => pmPriority pm i
  | none => none

/-- The variant groups sorted ascending by first-member priority
(`None` below every number, Python 2 semantics), stable. -/
def divideSortedGroups (g : Graph) (pm : PMap) : List (List String) :=
  pySorted
    (fun g1 g2 => ! optNatLt (divideGroupsKey pm g2) (divideGroupsKey pm g1))
    (variantGroups g)

/-- `Resolver.divide`: returns the number of graphs created and the new
alternatives stack (`deque.append` appends right; `deque.pop` pops
right). -/
def divide (g : Graph) (pm : PMap) (stack : List Graph) : Nat × List Graph :=
  if (variantGroups g).length = 0 then (0, stack)
  else
    let graph_list := (divideSortedGroups g pm).foldl divideStep [g]
    (graph_list.length,
     stack ++ (graph_list.reverse.map resetVariantGroups))

/-- All selections of one member per group, first group outermost
(the order the nested loops of `divide` produce). -/
def selections : List (List String) → List (List String)
  | [] => [[]]
  | grp :: rest => grp.flatMap fun c => (selections rest).map (c :: ·)

/-- Apply a choice per group in sequence. -/
def applySel (g : Graph) : List (List String × String) → Graph
  | [] => g
  | (grp, c) :: rest => applySel (divideChoice grp c g) rest

/-- Python `min` on the Python 2 `Option Nat` order. -/
def optNatMin (a b : Option Nat) : Option Nat :=
  if optNatLt a b then a else b

/-- The sort key the claim describes (spec wording, for comparison with
the code): the minimum priority over all of the group's members. -/
def divideGroupsKeyClaim (pm : PMap) (grp : List String) : Option Nat :=
  match grp.map (pmPriority pm) with
  | [] => none
  | x :: xs => xs.foldl optNatMin x

/-- `divide` as the claim describes it: groups sorted by the minimum
member priority instead of the first member's priority. -/
def divideSortedGroupsClaim (g : Graph) (pm : PMap) : List (List String) :=
  pySorted
    (fun g1 g2 =>
      ! optNatLt (divideGroupsKeyClaim pm g2) (divideGroupsKeyClaim pm g1))
    (variantGroups g)

/-- The claim's version of `divide` (identical except for the group sort
key). -/
def divideClaim (g : Graph) (pm : PMap) (stack : List Graph) :
    Nat × List Graph :=
  if (variantGroups g).length = 0 then (0, stack)
  else
    let graph_list := (divideSortedGroupsClaim g pm).foldl divideStep [g]
    (graph_list.length,
     stack ++ (graph_list.reverse.map resetVariantGroups))

/-- A variant node carrying only its own name. -/
def ndDiv (n : String) : GNode := ⟨⟨n, .v 1, none, none, []⟩, ["root"]⟩

/-- Graph with two variant groups whose first members do not carry the
minimum priority of their group: group `a` has members with priorities 5
and 1, group `b` members with priority 3. -/
def gDiv : Graph :=
  { node_mapping := [("a1", ndDiv "a1"), ("a2", ndDiv "a2"),
                     ("b1", ndDiv "b1"), ("b2", ndDiv "b2")]
    definition_mapping := []
    variant_mapping := [("ka", ["a1", "a2"]), ("kb", ["b1", "b2"])]
    link_mapping := [] }

/-- Priorities making first-member and minimum-member keys disagree. -/
def pmDiv : PMap :=
  [("a1", (some 5, some "root")), ("a2", (some 1, some "root")),
   ("b1", (some 3, some "root")), ("b2", (some 3, some "root"))]

/-! ### C8: `Graph.copy` and Python reference semantics

`Graph.copy` duplicates the four dicts with `dict.copy()` — shallow
copies: the `_Node` objects and the inner link dicts stay shared between
the original and the copy.  To reason about this aliasing, node objects
and inner link dicts live in explicit heaps addressed by index and the
graph's maps hold references into them. -/

/-- Heap cell lookup by reference. -/
def lget {α : Type} : List α → Nat → Option α
  | [], _ => none
  | a :: _, 0 => some a
  | _ :: t, n + 1 => lget t n

/-- Heap cell update by reference (out of range: unchanged). -/
def lset {α : Type} : List α → Nat → α → List α
  | [], _, _ => []
  | _ :: t, 0, v => v :: t
  | a :: t, n + 1, v => a :: lset t n v

/-- A graph as Python objects: the maps hold references into the heap
(the definition map plays no role in the copy claims and is omitted
from the views). -/
structure PyGraph where
  node_mapping : Dict Nat
  variant_mapping : Dict (List String)
  link_mapping : Dict Nat
deriving DecidableEq, Repr

/-- The heap of mutable objects. -/
structure PyHeap where
  nodes : List GNode
  linkDicts : List (Dict Link)
deriving DecidableEq, Repr

/-- `Graph.copy`: `dict.copy()` on each map duplicates the outer maps,
not the referenced objects. -/
def copyPy (g : PyGraph) : PyGraph :=
  { node_mapping := g.node_mapping
    variant_mapping := g.variant_mapping
    link_mapping := g.link_mapping }

/-- `Graph.remove_node`: only this graph's own node map shrinks; the
heap is untouched. -/
def removeNodePy (g : PyGraph) (identifier : String) : PyGraph :=
  { g with node_mapping := ddel g.node_mapping identifier }

/-- Python `set.add` (insertion-ordered model). -/
def setAdd (l : List String) (x : String) : List String :=
  if l.contains x then l else l ++ [x]

/-- `_Node.add_parent` reached through a graph's node map: mutates the
shared node object on the heap. -/
def addParentPy (h : PyHeap) (g : PyGraph) (identifier parent : String) :
    PyHeap :=
  match dget g.node_mapping identifier with
  | none => h
  | some r =>
    match lget h.nodes r with
    | none => h
    | some n =>
      let n' : GNode :=
        { n with parent_identifiers := setAdd n.parent_identifiers parent }
      { h with nodes := lset h.nodes r n' }

/-- `Graph._create_link`: `setdefault(parent, {})` allocates a fresh
inner dict when the parent key is absent (touching only this graph's own
link map); otherwise the shared inner dict on the heap is mutated.  A
duplicate (parent, child) link raises `IncorrectDefinition`. -/
def createLinkPy (h : PyHeap) (g : PyGraph) (identifier parent : String)
    (lk : Link) : Except WizErr (PyHeap × PyGraph) :=
  match dget g.link_mapping parent with
  | some r =>
    match lget h.linkDicts r with
    | none => .ok (h, g)
    | some inner =>
      if dmem inner identifier then .error .incorrectDefinition
      else .ok
        ({ h with linkDicts := lset h.linkDicts r (dset inner identifier lk) },
         g)
  | none =>
    .ok ({ h with linkDicts := h.linkDicts ++ [dset [] identifier lk] },
         { g with link_mapping := dset g.link_mapping parent h.linkDicts.length })

/-- The parent set of a node as observed through a graph. -/
def viewParents (h : PyHeap) (g : PyGraph) (identifier : String) :
    Option (List String) :=
  (dget g.node_mapping identifier).bind
    fun r => (lget h.nodes r).map (·.parent_identifiers)

/-- A link as observed through a graph. -/
def viewLink (h : PyHeap) (g : PyGraph) (parent identifier : String) :
    Option Link :=
  (dget g.link_mapping parent).bind
    fun r => (lget h.linkDicts r).bind fun inner => dget inner identifier

/-- Node heap for the counterexample: one node `a==1` at reference 0
with parent set `{root}`. -/
def hPy0 : PyHeap :=
  { nodes := [⟨⟨"a", .v 1, none, none, []⟩, ["root"]⟩]
    linkDicts := [[("a==1", ⟨⟨"a", ⟨[]⟩, []⟩, 1⟩)]] }

/-- The original graph for the counterexample. -/
def gPy0 : PyGraph :=
  { node_mapping := [("a==1", 0)]
    variant_mapping := []
    link_mapping := [("root", 0)] }

/-- Link payload used when mutating through the copy. -/
def lkB : Link := ⟨⟨"b", ⟨[]⟩, []⟩, 2⟩

/-- Heap after creating the link `root → b==1` through a copy of
`gPy0`: the shared inner dict of `root` gains the entry. -/
def hPy1 : PyHeap :=
  { nodes := [⟨⟨"a", .v 1, none, none, []⟩, ["root"]⟩]
    linkDicts := [[("a==1", ⟨⟨"a", ⟨[]⟩, []⟩, 1⟩), ("b==1", lkB)]] }

/-- Reference validity of a graph's link map into the heap. -/
def WfLinkRefs (h : PyHeap) (g : PyGraph) : Prop :=
  ∀ e ∈ g.link_mapping, e.2 < h.linkDicts.length

instance (h : PyHeap) (g : PyGraph) : Decidable (WfLinkRefs h g) :=
  inferInstanceAs (Decidable (∀ e ∈ g.link_mapping, e.2 < h.linkDicts.length))

/-! ### C10: termination of graph updates

`Graph.update_from_requirement` recurses into a definition's own
requirements only when its node was just created, and node creation is
bounded by the identifiers the registry can produce.  The unbounded
recursion is modelled with a fuel parameter burnt exactly when that
nested recursion fires; termination is the theorem that the registry
size plus one is always enough fuel. -/

/-- Modelled from the spec: merging a selected variant into its
definition (§3 Variant: "lists concatenate: variant requirements are
appended after definition requirements", the chosen variant recorded
under the legacy `variant` key read by `generate_identifier`). -/
def mergeVariant (d : Definition) (v : VariantDef) : Definition :=
  { d with
    variant := some v.identifier
    requirement := some ((d.requirement.getD []) ++ v.requirements)
    variants := [] }

/-- Modelled from the spec: `wiz.definition.get`, called by
`wiz.graph.Graph.update_from_requirement` but absent from `src/`
(only `query` is present).  Spec §4.B–§4.C: query the best matching
definition; with variants and a non-empty `extras`, select the first
named variant (`RequestNotFound` when absent); with variants and no
extras, every variant becomes a candidate. -/
def getDefs (req : Requirement) (dm : DefMap) : Except WizErr (List Definition) :=
  match query req dm with
  | .error e => .error e
  | .ok d =>
    match d.variants with
    | [] => .ok [d]
    | _ :: _ =>
      match req.extras with
      | [] => .ok (d.variants.map (mergeVariant d))
      | e :: _ =>
        match d.variants.find? (fun v => v.identifier = e) with
        | some v => .ok [mergeVariant d v]
        | none => .error .requestNotFound

/-- Every node identifier the registry can ever produce (deduplicated). -/
def registryIdents (dm : DefMap) : List String :=
  (dm.flatMap fun pr => pr.2.flatMap fun entry =>
    match entry.2.variants with
    | [] => [generateIdentifier entry.2]
    | vs => vs.map fun v => generateIdentifier (mergeVariant entry.2 v)).dedup

/-- Result of a (possibly fuel-limited) graph update. -/
inductive URes where
  | fuelOut
  | err (e : WizErr)
  | ok (g : Graph)
deriving DecidableEq, Repr

/-- `Graph._create_link` (value semantics): `setdefault(parent, {})`
then record the link, refusing duplicates. -/
def createLink (g : Graph) (identifier parent : String) (req : Requirement)
    (weight : Nat) : Except WizErr Graph :=
  let inner := (dget g.link_mapping parent).getD []
  if dmem inner identifier then .error .incorrectDefinition
  else .ok { g with
    link_mapping := dset g.link_mapping parent (dset inner identifier ⟨req, weight⟩) }

/-- `_Node.add_parent` on the node stored under `identifier`. -/
def addParentG (g : Graph) (identifier parent : String) : Graph :=
  match dget g.node_mapping identifier with
  | none => g
  | some n =>
    { g with
      node_mapping := dset g.node_mapping identifier ⟨n.definition, setAdd n.parent_identifiers parent⟩ }

/-- `definition_mapping.setdefault(..., set()).add(...)`. -/
def defMapAdd (g : Graph) (defIdent nodeIdent : String) : Graph :=
  { g with
    definition_mapping := dset g.definition_mapping defIdent (setAdd ((dget g.definition_mapping defIdent).getD []) nodeIdent) }

/-- The tail of one loop iteration of `update_from_requirement` after
the node exists: record the definition-map entry, the parent, and the
link (from the stored node's generated identifier). -/
def updateBookkeep (g : Graph) (d : Definition) (identifier : String)
    (req : Requirement) (parent : Option String) (weight : Nat) :
    Except WizErr Graph :=
  match dget g.node_mapping identifier with
  | none => .ok g
  | some node =>
    let nid := generateIdentifier node.definition
    createLink (addParentG (defMapAdd g d.identifier nid) identifier
      (parent.getD ROOT)) nid (parent.getD ROOT) req weight

/-- The type of the fuelled recursive call into
`update_from_requirements`. -/
abbrev RecurFn := Graph → List Requirement → Option String → URes

/-- The `for definition, identifier in izip(...)` loop of
`update_from_requirement`: a fresh identifier creates its node and
recurses into the definition's own `requirement` list before the
bookkeeping; an existing identifier only gets the bookkeeping. -/
def loopAux (recur : RecurFn) :
    List (Definition × String) → Requirement → Option String → Nat →
    Graph → URes
  | [], _, _, _, g => .ok g
  | (d, identifier) :: rest, req, parent, weight, g =>
    if dmem g.node_mapping identifier then
      match updateBookkeep g d identifier req parent weight with
      | .error e => .err e
      | .ok g' => loopAux recur rest req parent weight g'
    else
      let g1 : Graph :=
        { g with
          node_mapping := dset g.node_mapping identifier ⟨d, []⟩ }
      match d.requirement with
      | none =>
        match updateBookkeep g1 d identifier req parent weight with
        | .error e => .err e
        | .ok g' => loopAux recur rest req parent weight g'
      | some reqs =>
        match recur g1 reqs (some identifier) with
        | .fuelOut => .fuelOut
        | .err e => .err e
        | .ok g2 =>
          match updateBookkeep g2 d identifier req parent weight with
          | .error e => .err e
          | .ok g' => loopAux recur rest req parent weight g'

/-- One call of `update_from_requirement` given the nested-recursion
function: resolve the requirement, record a variant group when several
definitions come back (the md5 digest key is modelled by the
concatenated identifier string), then run the loop. -/
def oneAux (recur : RecurFn) (dm : DefMap) (g : Graph) (req : Requirement)
    (parent : Option String) (weight : Nat) : URes :=
  match getDefs req dm with
  | .error e => .err e
  | .ok defs =>
    let identifiers := defs.map generateIdentifier
    let g :=
      if defs.length > 1 then
        { g with
          variant_mapping := dset g.variant_mapping (String.join identifiers) identifiers }
      else g
    loopAux recur (defs.zip identifiers) req parent weight g

/-- `update_from_requirements` given the nested-recursion function:
weights count up from the given start. -/
def manyAux (recur : RecurFn) (dm : DefMap) :
    Graph → List Requirement → Option String → Nat → URes
  | g, [], _, _ => .ok g
  | g, r :: rs, parent, weight =>
    match oneAux recur dm g r parent weight with
    | .fuelOut => .fuelOut
    | .err e => .err e
    | .ok g' => manyAux recur dm g' rs parent (weight + 1)

/-- `Graph.update_from_requirements` with fuel: each nested descent into
a newly created node's requirements burns one unit. -/
def updateFromRequirementsF : Nat → DefMap → Graph → List Requirement →
    Option String → URes
  | 0, _, _, _, _ => .fuelOut
  | fuel + 1, dm, g, reqs, parent =>
    manyAux (fun g' reqs' parent' => updateFromRequirementsF fuel dm g' reqs' parent')
      dm g reqs parent 1

/-- `Graph.update_from_requirement` with fuel. -/
def updateFromRequirementF (fuel : Nat) (dm : DefMap) (g : Graph)
    (req : Requirement) (parent : Option String) (weight : Nat) : URes :=
  oneAux (fun g' reqs' parent' => updateFromRequirementsF fuel dm g' reqs' parent')
    dm g req parent weight

/-- Count of registry identifiers not yet present in the node map. -/
def missingCount (dm : DefMap) (g : Graph) : Nat :=
  ((registryIdents dm).filter fun i => ! dmem g.node_mapping i).length

/-- Node-map growth between two graphs. -/
def nodesSub (g g' : Graph) : Prop :=
  ∀ i, dmem g.node_mapping i = true → dmem g'.node_mapping i = true

/-! ### Theorems -/

/-! ### Dictionary lemmas -/

theorem dget_dset_self {α : Type} (d : Dict α) (k : String) (v : α) :
    dget (dset d k v) k = some v := by
  induction d with
  | nil => simp [dget, dset]
  | cons e rest ih =>
    by_cases h : e.1 = k
    · simp [dget, dset, h]
    · simp [dget, dset, h, ih]

theorem dget_dset_ne {α : Type} (d : Dict α) (k k' : String) (v : α)
    (h : k' ≠ k) : dget (dset d k v) k' = dget d k' := by
  have hkk : ¬ (k = k') := fun hh => h hh.symm
  induction d with
  | nil => simp [dget, dset, hkk]
  | cons e rest ih =>
    rcases e with ⟨ek, ev⟩
    by_cases he : ek = k
    · subst he
      simp [dget, dset, hkk]
    · simp only [dset, he, if_false]
      by_cases he' : ek = k'
      · subst he'
        simp [dget]
      · simp [dget, he', ih]

theorem dmem_eq_isSome {α : Type} (d : Dict α) (k : String) :
    dmem d k = (dget d k).isSome := by
  induction d with
  | nil => simp [dmem, dget]
  | cons e rest ih =>
    by_cases h : e.1 = k
    · simp [dmem, dget, h]
    · simp [dmem, dget, h, ih]

theorem dget_ddel_ne {α : Type} (d : Dict α) (k k' : String)
    (h : k' ≠ k) : dget (ddel d k) k' = dget d k' := by
  have hkk : ¬ (k = k') := fun hh => h hh.symm
  induction d with
  | nil => simp [dget, ddel]
  | cons e rest ih =>
    rcases e with ⟨ek, ev⟩
    by_cases he : ek = k
    · subst he
      simp [dget, ddel, hkk]
    · simp only [ddel, he, if_false]
      by_cases he' : ek = k'
      · subst he'
        simp [dget]
      · simp [dget, he', ih]

theorem dkeys_nil {α : Type} : dkeys ([] : Dict α) = [] := rfl

theorem dkeys_cons {α : Type} (e : String × α) (d : Dict α) :
    dkeys (e :: d) = e.1 :: dkeys d := rfl

theorem dmem_iff_mem {α : Type} (d : Dict α) (k : String) :
    dmem d k = true ↔ k ∈ dkeys d := by
  induction d with
  | nil => simp [dmem, dkeys_nil]
  | cons e rest ih =>
    by_cases he : e.1 = k
    · simp [dmem, dkeys_cons, he]
    · have hne : ¬ (k = e.1) := fun hh => he hh.symm
      simp [dmem, dkeys_cons, he, ih, hne]

theorem dkeys_dset {α : Type} (d : Dict α) (k : String) (v : α) :
    dkeys (dset d k v) = if dmem d k then dkeys d else dkeys d ++ [k] := by
  induction d with
  | nil => simp [dkeys, dset, dmem]
  | cons e rest ih =>
    rcases e with ⟨ek, ev⟩
    by_cases he : ek = k
    · subst he
      simp [dkeys, dset, dmem]
    · simp only [dset, he, if_false, dmem]
      by_cases hm : dmem rest k
      · simp [dkeys, hm] at ih ⊢
        simpa [he] using ih
      · simp [dkeys, hm] at ih ⊢
        simpa [he] using ih

theorem dkeys_ddel {α : Type} (d : Dict α) (k : String) :
    dkeys (ddel d k) = (dkeys d).erase k := by
  induction d with
  | nil => simp [dkeys, ddel]
  | cons e rest ih =>
    rcases e with ⟨ek, ev⟩
    by_cases he : ek = k
    · subst he
      simp [dkeys_cons, ddel, List.erase_cons_head]
    · have hb : (ek == k) = false := by simpa using he
      simp [dkeys_cons, ddel, he, ih, List.erase_cons, hb]

theorem dkeys_dset_nodup {α : Type} (d : Dict α) (k : String) (v : α)
    (h : (dkeys d).Nodup) : (dkeys (dset d k v)).Nodup := by
  rw [dkeys_dset]
  by_cases hm : dmem d k
  · simpa [hm] using h
  · have hk : k ∉ dkeys d := fun hk => hm ((dmem_iff_mem d k).mpr hk)
    simp only [hm, if_false, Bool.false_eq_true]
    refine List.Nodup.append h (by simp) ?_
    intro x hx hx'
    simp at hx'
    subst hx'
    exact hk hx

theorem dkeys_ddel_nodup {α : Type} (d : Dict α) (k : String)
    (h : (dkeys d).Nodup) : (dkeys (ddel d k)).Nodup := by
  rw [dkeys_ddel]
  exact h.erase k

theorem dmem_ddel_self {α : Type} (d : Dict α) (k : String)
    (h : (dkeys d).Nodup) : dmem (ddel d k) k = false := by
  by_contra hc
  have : dmem (ddel d k) k = true := by
    cases hd : dmem (ddel d k) k
    · exact absurd hd hc
    · rfl
  have hk := (dmem_iff_mem _ k).mp this
  rw [dkeys_ddel] at hk
  exact ((List.Nodup.mem_erase_iff h).mp hk).1 rfl

theorem dmem_ddel_ne {α : Type} (d : Dict α) (k k' : String) (h : k' ≠ k) :
    dmem (ddel d k) k' = dmem d k' := by
  rw [dmem_eq_isSome, dmem_eq_isSome, dget_ddel_ne d k k' h]

theorem dget_of_mem_nodup {α : Type} (d : Dict α) (e : String × α)
    (hmem : e ∈ d) (h : (dkeys d).Nodup) : dget d e.1 = some e.2 := by
  induction d with
  | nil => simp at hmem
  | cons f rest ih =>
    rw [dkeys_cons, List.nodup_cons] at h
    rcases List.mem_cons.mp hmem with rfl | hm
    · simp [dget]
    · have hne : f.1 ≠ e.1 := by
        intro hh
        apply h.1
        rw [hh]
        exact List.mem_map_of_mem Prod.fst hm
      simp [dget, hne, ih hm h.2]

theorem qSmallest_eq_none {q : PQueue} : qSmallest q = none ↔ q = [] := by
  cases q with
  | nil => simp [qSmallest]
  | cons e rest =>
    simp [qSmallest]
    cases h : qSmallest rest with
    | none => simp
    | some m =>
      by_cases hlt : entryLt m e
      · simp [hlt]
      · simp [hlt]

theorem qSmallest_mem {q : PQueue} {e : String × Nat}
    (h : qSmallest q = some e) : e ∈ q := by
  induction q with
  | nil => simp [qSmallest] at h
  | cons f rest ih =>
    simp [qSmallest] at h
    cases hs : qSmallest rest with
    | none =>
      rw [hs] at h
      simp at h
      simp [h]
    | some m =>
      rw [hs] at h
      by_cases hlt : entryLt m f
      · simp [hlt] at h
        right; exact ih (h ▸ hs)
      · simp [hlt] at h
        simp [h]

theorem dmem_dset_self {α : Type} (d : Dict α) (k : String) (v : α) :
    dmem (dset d k v) k = true := by
  rw [dmem_eq_isSome, dget_dset_self]
  rfl

theorem dmem_dset_ne {α : Type} (d : Dict α) (k k' : String) (v : α)
    (h : k' ≠ k) : dmem (dset d k v) k' = dmem d k' := by
  rw [dmem_eq_isSome, dmem_eq_isSome, dget_dset_ne d k k' v h]

theorem pmPriority_dset_self (pm : PMap) (k : String) (e : PMEntry) :
    pmPriority (dset pm k e) k = e.1 := by
  simp [pmPriority, dget_dset_self]

theorem pmPriority_dset_ne (pm : PMap) (k k' : String) (e : PMEntry)
    (h : k' ≠ k) : pmPriority (dset pm k e) k' = pmPriority pm k' := by
  simp [pmPriority, dget_dset_ne pm k k' e h]

theorem pmParent_dset_self (pm : PMap) (k : String) (e : PMEntry) :
    pmParent (dset pm k e) k = e.2 := by
  simp [pmParent, dget_dset_self]

theorem pmParent_dset_ne (pm : PMap) (k k' : String) (e : PMEntry)
    (h : k' ≠ k) : pmParent (dset pm k e) k' = pmParent pm k' := by
  simp [pmParent, dget_dset_ne pm k k' e h]

/-- EdgeW determines the weight. -/
theorem EdgeW_weight {g : Graph} {u v : String} {w : Nat}
    (h : EdgeW g u v w) : w = linkWeight g v u := h.2.symm

/-- Children of an edge are live, hence distinct from a root that is not
in the node map. -/
theorem EdgeW_ne_root {g : Graph} {u v : String} {w : Nat}
    (HR : nodeExists g ROOT = false) (h : EdgeW g u v w) : v ≠ ROOT := by
  intro hv
  rcases h with ⟨hmem, _⟩
  subst hv
  have : nodeExists g ROOT = true := by
    rcases List.mem_filter.mp hmem with ⟨_, hf⟩
    exact hf
  rw [HR] at this
  cases this

/-- One relaxation step preserves the fold invariant, discharging the
head child. -/
theorem foldInv_step {g : Graph} {ident : String} {cur : Nat}
    {c : String} {rest : List String} {pm : PMap} {q : PQueue}
    (HR : nodeExists g ROOT = false)
    (hc : c ∈ outcoming g ident)
    (inv : FoldInv g ident cur (c :: rest) pm q) :
    FoldInv g ident cur rest
      (relaxChild g ident cur (pm, q) c).1
      (relaxChild g ident cur (pm, q) c).2 := by
  have hcroot : c ≠ ROOT := EdgeW_ne_root HR ⟨hc, rfl⟩
  have hrootc : ROOT ≠ c := fun hh => hcroot hh.symm
  -- decide whether the step updates child `c`
  by_cases hup : pmPriority pm c = none ∨
      (∃ lp, pmPriority pm c = some lp ∧ lp < cur + linkWeight g c ident)
  · -- the update branch
    have hrc : relaxChild g ident cur (pm, q) c =
        (dset pm c (some (cur + linkWeight g c ident), some ident),
         dset q c (cur + linkWeight g c ident)) := by
      rcases hup with hnone | ⟨lp, hlp, hlt⟩
      · simp [relaxChild, hnone]
      · simp [relaxChild, hlp, hlt]
    rw [hrc]
    set P := cur + linkWeight g c ident with hP
    set pm' := dset pm c (some P, some ident) with hpm'
    set q' := dset q c P with hq'
    have hprio : ∀ x, x ≠ c → pmPriority pm' x = pmPriority pm x :=
      fun x hx => pmPriority_dset_ne pm c x _ hx
    have hprioc : pmPriority pm' c = some P := pmPriority_dset_self pm c _
    have hparc : pmParent pm' c = some ident := pmParent_dset_self pm c _
    have hpar : ∀ x, x ≠ c → pmParent pm' x = pmParent pm x :=
      fun x hx => pmParent_dset_ne pm c x _ hx
    -- priorities never decrease across the update
    have hmono : ∀ x px, pmPriority pm x = some px →
        ∃ px', pmPriority pm' x = some px' ∧ px ≤ px' := by
      intro x px hx
      by_cases hxc : x = c
      · rw [hxc] at hx
        rcases hup with hnone | ⟨lp, hlp, hlt⟩
        · rw [hx] at hnone; cases hnone
        · rw [hx] at hlp
          have hpl : px = lp := Option.some.inj hlp
          exact ⟨P, hxc ▸ hprioc, by omega⟩
      · exact ⟨px, (hprio x hxc).trans hx, le_refl px⟩
    refine
      { root_prio := by rw [hprio ROOT hrootc]; exact inv.root_prio
        root_par := by rw [hpar ROOT hrootc]; exact inv.root_par
        parent_edge := ?_
        others_relaxed := ?_
        self_pending := ?_
        self_prio := ?_
        self_ge := ?_
        queue_pm := ?_
        qnodup := dkeys_dset_nodup q c P inv.qnodup }
    · -- parent_edge
      intro v p hvroot hvp
      by_cases hvc : v = c
      · subst hvc
        rw [hprioc] at hvp
        obtain rfl : P = p := Option.some.inj hvp
        rcases inv.self_ge with ⟨pi, hpi, hcurpi⟩
        by_cases hic : ident = v
        · refine ⟨ident, linkWeight g v ident, P, hparc, ⟨hc, rfl⟩, ?_, ?_⟩
          · rw [hic]; exact hprioc
          · omega
        · refine ⟨ident, linkWeight g v ident, pi, hparc, ⟨hc, rfl⟩, ?_, ?_⟩
          · rw [hprio ident hic]; exact hpi
          · omega
      · rw [hprio v hvc] at hvp
        rcases inv.parent_edge v p hvroot hvp with ⟨u, w, qu, hpar1, hedge, hqu, hle⟩
        rcases hmono u qu hqu with ⟨qu', hqu', hqule⟩
        exact ⟨u, w, qu', by rw [hpar v hvc]; exact hpar1, hedge, hqu', by omega⟩
    · -- others_relaxed
      intro u qu hui hqu hqmem v w hedge
      by_cases huc : u = c
      · rw [huc, hq', dmem_dset_self] at hqmem
        cases hqmem
      · rw [hq', dmem_dset_ne q c u P huc] at hqmem
        rw [hprio u huc] at hqu
        rcases inv.others_relaxed u qu hui hqu hqmem v w hedge with ⟨pv, hpv, hwle⟩
        rcases hmono v pv hpv with ⟨pv', hpv', hple⟩
        exact ⟨pv', hpv', by omega⟩
    · -- self_pending
      intro v w hedge
      by_cases hvc : v = c
      · right
        have hw : w = linkWeight g c ident := by
          rw [EdgeW_weight hedge, hvc]
        exact ⟨P, hvc ▸ hprioc, by omega⟩
      · rcases inv.self_pending v w hedge with hmem | ⟨pv, hpv, hwle⟩
        · rcases List.mem_cons.mp hmem with heq | hmem'
          · exact absurd heq hvc
          · exact Or.inl hmem'
        · rcases hmono v pv hpv with ⟨pv', hpv', hple⟩
          exact Or.inr ⟨pv', hpv', by omega⟩
    · -- self_prio
      by_cases hic : ident = c
      · right
        rw [hic, hq']
        exact dmem_dset_self q c P
      · rcases inv.self_prio with hl | hr
        · left; rw [hprio ident hic]; exact hl
        · right; rw [hq', dmem_dset_ne q c ident P hic]; exact hr
    · -- self_ge
      rcases inv.self_ge with ⟨pi, hpi, hcurpi⟩
      rcases hmono ident pi hpi with ⟨pi', hpi', hple⟩
      exact ⟨pi', hpi', by omega⟩
    · -- queue_pm
      intro v pv hv
      by_cases hvc : v = c
      · rw [hvc, hq', dget_dset_self] at hv
        obtain rfl : P = pv := Option.some.inj hv
        exact hvc ▸ hprioc
      · rw [hq', dget_dset_ne q c v P hvc] at hv
        rw [hprio v hvc]
        exact inv.queue_pm v pv hv
  · -- the no-update branch: the recorded priority already dominates
    push_neg at hup
    rcases hup with ⟨hne, hge⟩
    rcases hlp : pmPriority pm c with _ | lp
    · exact absurd hlp hne
    · have hnlt : ¬ (lp < cur + linkWeight g c ident) := by
        have := hge lp hlp
        omega
      have hrc : relaxChild g ident cur (pm, q) c = (pm, q) := by
        simp [relaxChild, hlp, hnlt]
      rw [hrc]
      refine
        { root_prio := inv.root_prio
          root_par := inv.root_par
          parent_edge := inv.parent_edge
          others_relaxed := inv.others_relaxed
          self_pending := ?_
          self_prio := inv.self_prio
          self_ge := inv.self_ge
          queue_pm := inv.queue_pm
          qnodup := inv.qnodup }
      intro v w hedge
      by_cases hvc : v = c
      · right
        have hw : w = linkWeight g c ident := by
          rw [EdgeW_weight hedge, hvc]
        refine ⟨lp, hvc ▸ hlp, ?_⟩
        omega
      · rcases inv.self_pending v w hedge with hmem | hsat
        · rcases List.mem_cons.mp hmem with heq | hmem'
          · exact absurd heq hvc
          · exact Or.inl hmem'
        · exact Or.inr hsat

/-- Running the relaxation fold to completion keeps the invariant with
no pending children. -/
theorem foldInv_run {g : Graph} {ident : String} {cur : Nat}
    (HR : nodeExists g ROOT = false) :
    ∀ (rem : List String) (st : PMap × PQueue),
      (∀ c ∈ rem, c ∈ outcoming g ident) →
      FoldInv g ident cur rem st.1 st.2 →
      FoldInv g ident cur []
        (rem.foldl (relaxChild g ident cur) st).1
        (rem.foldl (relaxChild g ident cur) st).2 := by
  intro rem
  induction rem with
  | nil =>
    intro st _ inv
    simpa using inv
  | cons c rest ih =>
    intro st hmem inv
    rw [List.foldl_cons]
    apply ih
    · intro x hx
      exact hmem x (List.mem_cons_of_mem c hx)
    · exact foldInv_step HR (hmem c (List.mem_cons_self c rest)) inv

/-- Popping the smallest queue entry establishes the fold invariant for
the popped node over all of its children. -/
theorem dijkInv_pop {g : Graph} {pm : PMap} {q : PQueue} {ident : String}
    {pr : Nat} (inv : DijkInv g pm q) (hpop : qSmallest q = some (ident, pr)) :
    FoldInv g ident ((pmPriority pm ident).getD 0) (outcoming g ident)
      pm (ddel q ident) := by
  have hmemq : (ident, pr) ∈ q := qSmallest_mem hpop
  have hget : dget q ident = some pr :=
    dget_of_mem_nodup q (ident, pr) hmemq inv.qnodup
  have hprio : pmPriority pm ident = some pr := inv.queue_pm ident pr hget
  have hcur : (pmPriority pm ident).getD 0 = pr := by rw [hprio]; rfl
  refine
    { root_prio := inv.root_prio
      root_par := inv.root_par
      parent_edge := inv.parent_edge
      others_relaxed := ?_
      self_pending := fun v w hedge => Or.inl hedge.1
      self_prio := Or.inl (by rw [hcur]; exact hprio)
      self_ge := ⟨pr, hprio, le_of_eq hcur⟩
      queue_pm := ?_
      qnodup := dkeys_ddel_nodup q ident inv.qnodup }
  · intro u qu hui hqu hqmem v w hedge
    rw [dmem_ddel_ne q ident u hui] at hqmem
    exact inv.relaxed u qu hqu hqmem v w hedge
  · intro v pv hv
    by_cases hvi : v = ident
    · subst hvi
      have hdel : dmem (ddel q v) v = false := dmem_ddel_self q v inv.qnodup
      rw [dmem_eq_isSome, hv] at hdel
      cases hdel
    · rw [dget_ddel_ne q ident v hvi] at hv
      exact inv.queue_pm v pv hv

/-- A finished fold with nothing pending yields the loop invariant again. -/
theorem foldInv_to_dijkInv {g : Graph} {ident : String} {cur : Nat}
    {pm : PMap} {q : PQueue} (inv : FoldInv g ident cur [] pm q) :
    DijkInv g pm q := by
  refine
    { root_prio := inv.root_prio
      root_par := inv.root_par
      parent_edge := inv.parent_edge
      relaxed := ?_
      queue_pm := inv.queue_pm
      qnodup := inv.qnodup }
  intro u qu hqu hqmem v w hedge
  by_cases hui : u = ident
  · subst hui
    rcases inv.self_prio with hl | hr
    · have hqc : qu = cur := by
        rw [hl] at hqu
        exact (Option.some.inj hqu).symm
      rcases inv.self_pending v w hedge with hmem | ⟨pv, hpv, hwle⟩
      · cases hmem
      · exact ⟨pv, hpv, by omega⟩
    · rw [hqmem] at hr
      cases hr
  · exact inv.others_relaxed u qu hui hqu hqmem v w hedge

/-- The queue loop preserves the invariant and ends with an empty queue. -/
theorem dijkstraLoop_final {g : Graph} (HR : nodeExists g ROOT = false) :
    ∀ (fuel : Nat) (pm : PMap) (q : PQueue) (pm' : PMap),
      DijkInv g pm q → dijkstraLoop g fuel pm q = some pm' →
      DijkInv g pm' [] := by
  intro fuel
  induction fuel with
  | zero =>
    intro pm q pm' _ h
    simp [dijkstraLoop] at h
  | succ fuel ih =>
    intro pm q pm' inv hrun
    rw [dijkstraLoop] at hrun
    cases hpop : qSmallest q with
    | none =>
      rw [hpop] at hrun
      simp at hrun
      have hq : q = [] := qSmallest_eq_none.mp hpop
      subst hq
      rw [← hrun]
      exact inv
    | some e =>
      rcases e with ⟨ident, pr⟩
      rw [hpop] at hrun
      simp only at hrun
      have finv := dijkInv_pop inv hpop
      have frun := foldInv_run HR (outcoming g ident) (pm, ddel q ident)
        (fun c hc => hc) finv
      exact ih _ _ pm' (foldInv_to_dijkInv frun) hrun

/-- Priorities of the freshly initialised mapping are all `none`. -/
theorem pmPriority_init (l : List String) (v : String) :
    pmPriority (l.map fun i => (i, ((none : Option Nat), (none : Option String)))) v
      = none := by
  induction l with
  | nil => simp [pmPriority, dget]
  | cons a rest ih =>
    by_cases h : a = v
    · simp [pmPriority, dget, h]
    · simpa [pmPriority, dget, h] using ih

/-- A complete run of `compute_priority_mapping` satisfies the loop
invariant with an empty queue (full relaxation). -/
theorem computePriorityMapping_inv {fuel : Nat} {g : Graph} {pm : PMap}
    (HR : nodeExists g ROOT = false)
    (hrun : computePriorityMapping fuel g = some pm) : DijkInv g pm [] := by
  unfold computePriorityMapping at hrun
  refine dijkstraLoop_final HR fuel _ _ pm ?_ hrun
  refine
    { root_prio := by rw [pmPriority_dset_self]
      root_par := by rw [pmParent_dset_self]
      parent_edge := ?_
      relaxed := ?_
      queue_pm := ?_
      qnodup := by simp [dset, dkeys_cons, dkeys_nil] }
  · intro v p hvroot hvp
    rw [pmPriority_dset_ne _ _ _ _ hvroot, pmPriority_init] at hvp
    cases hvp
  · intro u qu hqu hqmem v w hedge
    by_cases hu : u = ROOT
    · subst hu
      have : dmem (dset ([] : PQueue) ROOT 0) ROOT = true := dmem_dset_self [] ROOT 0
      rw [hqmem] at this
      cases this
    · rw [pmPriority_dset_ne _ _ _ _ hu, pmPriority_init] at hqu
      cases hqu
  · intro v pv hv
    by_cases hvr : v = ROOT
    · subst hvr
      rw [dget_dset_self] at hv
      obtain rfl : 0 = pv := Option.some.inj hv
      rw [pmPriority_dset_self]
    · rw [dget_dset_ne _ _ _ _ hvr] at hv
      simp [dget] at hv

/-- An entry found by `dget` is an entry of the list. -/
theorem dget_mem {α : Type} (d : Dict α) (k : String) (v : α)
    (h : dget d k = some v) : (k, v) ∈ d := by
  induction d with
  | nil => simp [dget] at h
  | cons e rest ih =>
    rcases e with ⟨ek, ev⟩
    by_cases he : ek = k
    · subst he
      simp [dget] at h
      simp [h]
    · simp [dget, he] at h
      exact List.mem_cons_of_mem _ (ih h)

theorem weightsPositive_edge {g : Graph} (hw : weightsPositive g = true)
    {u v : String} {w : Nat} (h : EdgeW g u v w) : 1 ≤ w := by
  rcases h with ⟨hmem, hweight⟩
  rcases List.mem_filter.mp hmem with ⟨hkeys, _⟩
  cases hlink : dget g.link_mapping u with
  | none =>
    rw [hlink] at hkeys
    simp [dkeys_nil] at hkeys
  | some inner =>
    rw [hlink] at hkeys
    simp only [Option.getD] at hkeys
    have hvm : dmem inner v = true := (dmem_iff_mem inner v).mpr hkeys
    rw [dmem_eq_isSome] at hvm
    cases hl : dget inner v with
    | none => rw [hl] at hvm; cases hvm
    | some link =>
      have h1 : (u, inner) ∈ g.link_mapping := dget_mem _ u inner hlink
      have h2 : (v, link) ∈ inner := dget_mem _ v link hl
      have := (List.all_eq_true.mp hw) (u, inner) h1
      have hwl := (List.all_eq_true.mp this) (v, link) h2
      simp only [linkWeight, hlink, hl] at hweight
      subst hweight
      simpa using hwl

/-- At termination the recorded parent edge is tight:
`priority(child) = priority(parent) + weight`. -/
theorem final_parent_exact {g : Graph} {pm : PMap} (inv : DijkInv g pm []) :
    ∀ v p, v ≠ ROOT → pmPriority pm v = some p →
      ∃ u w qu, pmParent pm v = some u ∧ EdgeW g u v w ∧
        pmPriority pm u = some qu ∧ p = qu + w := by
  intro v p hvroot hvp
  rcases inv.parent_edge v p hvroot hvp with ⟨u, w, qu, hpar, hedge, hqu, hle⟩
  rcases inv.relaxed u qu hqu rfl v w hedge with ⟨pv, hpv, hge⟩
  rw [hvp] at hpv
  obtain rfl : p = pv := Option.some.inj hpv
  exact ⟨u, w, qu, hpar, hedge, hqu, by omega⟩

theorem chain_of_final {g : Graph} {pm : PMap}
    (HW : weightsPositive g = true) (inv : DijkInv g pm []) :
    ∀ p v, pmPriority pm v = some p → ChainToRoot g pm v := by
  intro p
  induction p using Nat.strong_induction_on with
  | _ p ih =>
    intro v hv
    by_cases hroot : v = ROOT
    · subst hroot
      exact ChainToRoot.root
    · obtain ⟨u, w, qu, hpar, hedge, hqu, heq⟩ :=
        final_parent_exact inv v p hroot hv
      have hw1 : 1 ≤ w := weightsPositive_edge HW hedge
      have hlt : qu < p := by omega
      exact ChainToRoot.step hpar hedge hv hqu (by omega) (ih qu hlt u hqu)

/-- Every priority is realised by an actual path (the parent chain). -/
theorem pathTo_of_priority {g : Graph} {pm : PMap}
    (HW : weightsPositive g = true) (inv : DijkInv g pm []) :
    ∀ p v, pmPriority pm v = some p → PathTo g v p := by
  intro p
  induction p using Nat.strong_induction_on with
  | _ p ih =>
    intro v hv
    by_cases hroot : v = ROOT
    · subst hroot
      have h0 := inv.root_prio
      rw [hv] at h0
      obtain rfl : p = 0 := Option.some.inj h0
      exact PathTo.root
    · obtain ⟨u, w, qu, hpar, hedge, hqu, heq⟩ :=
        final_parent_exact inv v p hroot hv
      have hw1 : 1 ≤ w := weightsPositive_edge HW hedge
      have hlt : qu < p := by omega
      have hpath : PathTo g u qu := ih qu hlt u hqu
      have := PathTo.step hpath hedge
      rw [heq]
      exact this

/-- Every path weight is dominated by the recorded priority. -/
theorem priority_ge_path {g : Graph} {pm : PMap} (inv : DijkInv g pm []) :
    ∀ v c, PathTo g v c → ∃ p, pmPriority pm v = some p ∧ c ≤ p := by
  intro v c hpath
  induction hpath with
  | root => exact ⟨0, inv.root_prio, le_refl 0⟩
  | step hp hedge ih =>
    rcases ih with ⟨pu, hpu, hcle⟩
    rcases inv.relaxed _ _ hpu rfl _ _ hedge with ⟨pv, hpv, hle⟩
    exact ⟨pv, hpv, by omega⟩

/-- C1: the claim says `compute_priority_mapping` assigns the minimum
path weight (Dijkstra shortest path).  On `gLongest` the node `a==1` is
reachable by a direct root path of weight 1, yet the computed priority
is 3 (the update keeps the larger priority, so the longer path wins).
A minimum would have to be ≤ 1 < 3. -/
theorem C1_counterexample :
    (computePriorityMapping 10 gLongest).map (fun pm => pmPriority pm "a==1")
      = some (some 3)
    ∧ PathTo gLongest "a==1" 1 ∧ (1 : Nat) < 3 := by
  refine ⟨by decide, ?_, by decide⟩
  have h := PathTo.step (PathTo.root : PathTo gLongest ROOT 0)
    (show EdgeW gLongest ROOT "a==1" 1 by decide)
  exact h

/-- C1 (amended): for every graph whose link weights are positive and
whose node map does not contain the root, whenever the queue loop of
`compute_priority_mapping` completes, the resulting mapping assigns to
every node reachable from the root the maximum, over all directed paths
from the root to that node, of the sum of the link weights along the
path (longest path), together with a parent achieving that maximum, and
every node not reachable from the root is assigned priority none. -/
theorem C1_amended {fuel : Nat} {g : Graph} {pm : PMap}
    (HR : nodeExists g ROOT = false) (HW : weightsPositive g = true)
    (hrun : computePriorityMapping fuel g = some pm) :
    (∀ v p, pmPriority pm v = some p →
      PathTo g v p ∧ (∀ c, PathTo g v c → c ≤ p)) ∧
    (∀ v, pmPriority pm v = none → ∀ c, ¬ PathTo g v c) ∧
    (∀ v p, v ≠ ROOT → pmPriority pm v = some p →
      ∃ u w qu, pmParent pm v = some u ∧ EdgeW g u v w ∧
        pmPriority pm u = some qu ∧ p = qu + w) := by
  have inv := computePriorityMapping_inv HR hrun
  refine ⟨?_, ?_, final_parent_exact inv⟩
  · intro v p hv
    refine ⟨pathTo_of_priority HW inv p v hv, ?_⟩
    intro c hc
    rcases priority_ge_path inv v c hc with ⟨p', hp', hcle⟩
    rw [hv] at hp'
    obtain rfl : p = p' := Option.some.inj hp'
    exact hcle
  · intro v hv c hc
    rcases priority_ge_path inv v c hc with ⟨p', hp', _⟩
    rw [hv] at hp'
    cases hp'

/-- Witness for C1 (amended) on the concrete diamond graph: `a==1` gets
priority 3, realised by the path through `b==1`, and every root path to
`a==1` weighs at most 3. -/
theorem C1_amended_witness :
    nodeExists gLongest ROOT = false ∧ weightsPositive gLongest = true ∧
    computePriorityMapping 10 gLongest = some pmLongest ∧
    PathTo gLongest "a==1" 3 ∧ (∀ c, PathTo gLongest "a==1" c → c ≤ 3) := by
  have h := (@C1_amended 10 gLongest pmLongest
    (by decide) (by decide) (by decide)).1 "a==1" 3 (by decide)
  exact ⟨by decide, by decide, by decide, h.1, h.2⟩

/-- C9: in every completed priority mapping over a graph with positive
weights (and the synthetic root absent from the node map), following the
recorded parents from any node that received a priority walks back to
the root, and every parent edge on that chain satisfies
`priority(child) ≥ priority(parent) + weight(edge)`. -/
theorem C9_parent_chain {fuel : Nat} {g : Graph} {pm : PMap}
    (HR : nodeExists g ROOT = false) (HW : weightsPositive g = true)
    (hrun : computePriorityMapping fuel g = some pm) :
    ∀ v p, pmPriority pm v = some p → ChainToRoot g pm v := by
  have inv := computePriorityMapping_inv HR hrun
  intro v p hv
  exact chain_of_final HW inv p v hv

/-- Witness for C9 on the concrete diamond graph. -/
theorem C9_parent_chain_witness :
    nodeExists gLongest ROOT = false ∧ weightsPositive gLongest = true ∧
    computePriorityMapping 10 gLongest = some pmLongest ∧
    ChainToRoot gLongest pmLongest "a==1" := by
  refine ⟨by decide, by decide, by decide, ?_⟩
  exact @C9_parent_chain 10 gLongest pmLongest
    (by decide) (by decide) (by decide) "a==1" 3 (by decide)

/-! ### Order-theoretic facts about the Python comparisons -/

theorem chLt_trans {a b c : Char} (h1 : chLt a b = true) (h2 : chLt b c = true) :
    chLt a c = true := by
  simp [chLt] at h1 h2 ⊢
  omega

theorem chLt_connex {a b : Char} (h1 : chLt a b = false) (h2 : chLt b a = false) :
    a = b := by
  simp [chLt] at h1 h2
  apply Char.eq_of_val_eq
  apply UInt32.ext
  simpa [Char.toNat, UInt32.toNat] using Nat.le_antisymm h2 h1

theorem chListLt_trans : ∀ {a b c : List Char},
    chListLt a b = true → chListLt b c = true → chListLt a c = true := by
  intro a
  induction a with
  | nil =>
    intro b c h1 h2
    cases b with
    | nil => exact h2
    | cons x xs =>
      cases c with
      | nil => simp [chListLt] at h2
      | cons y ys => simp [chListLt]
  | cons x xs ih =>
    intro b c h1 h2
    cases b with
    | nil => simp [chListLt] at h1
    | cons y ys =>
      cases c with
      | nil => simp [chListLt] at h2
      | cons z zs =>
        simp only [chListLt] at h1 h2 ⊢
        by_cases hxy : chLt x y = true
        · by_cases hyz : chLt y z = true
          · simp [chLt_trans hxy hyz]
          · simp at hyz
            by_cases hzy : chLt z y = true
            · simp [hyz, hzy] at h2
            · simp at hzy
              have : y = z := chLt_connex hyz hzy
              subst this
              simp [hxy]
        · simp at hxy
          by_cases hyx : chLt y x = true
          · simp [hxy, hyx] at h1
          · simp at hyx
            have : x = y := chLt_connex hxy hyx
            subst this
            have hxx : chLt x x = false := by simp [chLt]
            by_cases hxz : chLt x z = true
            · simp [hxz]
            · simp at hxz
              by_cases hzx : chLt z x = true
              · simp [hxz, hzx] at h2
              · simp at hzx
                simp [hxx, hxz, hzx] at h1 h2 ⊢
                exact ih h1 h2

theorem chListLt_connex : ∀ {a b : List Char},
    chListLt a b = false → chListLt b a = false → a = b := by
  intro a
  induction a with
  | nil =>
    intro b h1 h2
    cases b with
    | nil => rfl
    | cons y ys => simp [chListLt] at h1
  | cons x xs ih =>
    intro b h1 h2
    cases b with
    | nil => simp [chListLt] at h2
    | cons y ys =>
      simp only [chListLt] at h1 h2
      by_cases hxy : chLt x y = true
      · simp [hxy] at h1
      · simp at hxy
        by_cases hyx : chLt y x = true
        · simp [hyx] at h2
        · simp at hyx
          have hc : x = y := chLt_connex hxy hyx
          subst hc
          simp [hxy] at h1 h2
          rw [ih h1 h2]

theorem pyStrLt_trans {a b c : String} (h1 : pyStrLt a b = true)
    (h2 : pyStrLt b c = true) : pyStrLt a c = true :=
  chListLt_trans h1 h2

theorem pyStrLt_connex {a b : String} (h1 : pyStrLt a b = false)
    (h2 : pyStrLt b a = false) : a = b := by
  have := chListLt_connex h1 h2
  cases a
  cases b
  exact congrArg String.mk this

theorem optNatLt_trans {a b c : Option Nat} (h1 : optNatLt a b = true)
    (h2 : optNatLt b c = true) : optNatLt a c = true := by
  cases a <;> cases b <;> cases c <;> simp [optNatLt] at h1 h2 ⊢ <;> omega

theorem optNatLt_connex {a b : Option Nat} (h1 : optNatLt a b = false)
    (h2 : optNatLt b a = false) : a = b := by
  cases a <;> cases b <;> simp [optNatLt] at h1 h2 ⊢ <;> omega

theorem optStrLt_trans {a b c : Option String} (h1 : optStrLt a b = true)
    (h2 : optStrLt b c = true) : optStrLt a c = true := by
  cases a <;> cases b <;> cases c <;> simp [optStrLt] at h1 h2 ⊢
  exact pyStrLt_trans h1 h2

theorem optStrLt_connex {a b : Option String} (h1 : optStrLt a b = false)
    (h2 : optStrLt b a = false) : a = b := by
  cases a <;> cases b <;> simp [optStrLt] at h1 h2 ⊢
  exact pyStrLt_connex h1 h2

theorem pmKeyLt_trans {a b c : PMEntry} (h1 : pmKeyLt a b = true)
    (h2 : pmKeyLt b c = true) : pmKeyLt a c = true := by
  simp only [pmKeyLt, Bool.or_eq_true, Bool.and_eq_true, decide_eq_true_eq] at h1 h2 ⊢
  rcases h1 with h1 | ⟨h1e, h1s⟩
  · rcases h2 with h2 | ⟨h2e, h2s⟩
    · exact Or.inl (optNatLt_trans h1 h2)
    · exact Or.inl (h2e ▸ h1)
  · rcases h2 with h2 | ⟨h2e, h2s⟩
    · exact Or.inl (h1e ▸ h2)
    · exact Or.inr ⟨h1e.trans h2e, optStrLt_trans h1s h2s⟩

theorem chListLt_irrefl : ∀ l : List Char, chListLt l l = false := by
  intro l
  induction l with
  | nil => rfl
  | cons a t ih =>
    have haa : chLt a a = false := by simp [chLt]
    simp [chListLt, haa, ih]

theorem optNatLt_irrefl (a : Option Nat) : optNatLt a a = false := by
  cases a <;> simp [optNatLt]

theorem optStrLt_irrefl (a : Option String) : optStrLt a a = false := by
  cases a with
  | none => rfl
  | some s => simpa [optStrLt, pyStrLt] using chListLt_irrefl s.data

theorem pmKeyLt_irrefl (a : PMEntry) : pmKeyLt a a = false := by
  simp [pmKeyLt, optNatLt_irrefl, optStrLt_irrefl]

theorem pmKeyLt_connex {a b : PMEntry} (h1 : pmKeyLt a b = false)
    (h2 : pmKeyLt b a = false) : a = b := by
  simp only [pmKeyLt, Bool.or_eq_false_iff, Bool.and_eq_false_iff] at h1 h2
  rcases h1 with ⟨h1n, h1r⟩
  rcases h2 with ⟨h2n, h2r⟩
  have hn : a.1 = b.1 := optNatLt_connex h1n h2n
  have hs : a.2 = b.2 := by
    rcases h1r with h1e | h1s
    · simp [hn] at h1e
    · rcases h2r with h2e | h2s
      · simp [hn] at h2e
      · exact optStrLt_connex h1s h2s
  exact Prod.ext hn hs

/-! ### Stable sort lemmas (`pySorted` models Python `sorted`) -/

theorem stableInsert_perm {α : Type} (le : α → α → Bool) (a : α) :
    ∀ l : List α, (stableInsert le a l).Perm (a :: l) := by
  intro l
  induction l with
  | nil => simp [stableInsert]
  | cons b t ih =>
    by_cases h : le a b = true
    · simp [stableInsert, h]
    · simp only [stableInsert, h, if_false, Bool.false_eq_true]
      exact (ih.cons b).trans (List.Perm.swap a b t)

theorem pySorted_perm {α : Type} (le : α → α → Bool) :
    ∀ l : List α, (pySorted le l).Perm l := by
  intro l
  induction l with
  | nil => simp [pySorted]
  | cons a t ih =>
    exact (stableInsert_perm le a (pySorted le t)).trans (ih.cons a)

theorem stableInsert_pairwise {α : Type} (le : α → α → Bool)
    (htot : ∀ a b, le a b = true ∨ le b a = true)
    (htrans : ∀ a b c, le a b = true → le b c = true → le a c = true)
    (a : α) : ∀ l : List α, List.Pairwise (fun x y => le x y = true) l →
      List.Pairwise (fun x y => le x y = true) (stableInsert le a l) := by
  intro l
  induction l with
  | nil =>
    intro _
    simp [stableInsert]
  | cons b t ih =>
    intro hp
    rcases List.pairwise_cons.mp hp with ⟨hb, ht⟩
    by_cases h : le a b = true
    · rw [stableInsert, h, if_pos rfl]
      refine List.pairwise_cons.mpr ⟨?_, hp⟩
      intro x hx
      rcases List.mem_cons.mp hx with rfl | hxt
      · exact h
      · exact htrans a b x h (hb x hxt)
    · rw [stableInsert, if_neg h]
      refine List.pairwise_cons.mpr ⟨?_, ih ht⟩
      intro x hx
      have hba : le b a = true := by
        rcases htot a b with hh | hh
        · exact absurd hh h
        · exact hh
      have hmem := (stableInsert_perm le a t).mem_iff.mp hx
      rcases List.mem_cons.mp hmem with rfl | hxt
      · exact hba
      · exact hb x hxt

theorem pySorted_pairwise {α : Type} (le : α → α → Bool)
    (htot : ∀ a b, le a b = true ∨ le b a = true)
    (htrans : ∀ a b c, le a b = true → le b c = true → le a c = true) :
    ∀ l : List α, List.Pairwise (fun x y => le x y = true) (pySorted le l) := by
  intro l
  induction l with
  | nil => simp [pySorted]
  | cons a t ih => exact stableInsert_pairwise le htot htrans a (pySorted le t) ih

theorem stableInsert_filter_pos {α : Type} (le : α → α → Bool) (p : α → Bool)
    (a : α) (hp : ∀ b, p b = true → le a b = true) (ha : p a = true) :
    ∀ l : List α, (stableInsert le a l).filter p = a :: l.filter p := by
  intro l
  induction l with
  | nil => simp [stableInsert, ha]
  | cons b t ih =>
    by_cases h : le a b = true
    · simp [stableInsert, h, List.filter, ha]
    · have hpb : p b = false := by
        cases hb : p b
        · rfl
        · exact absurd (hp b hb) h
      simp only [stableInsert, h, Bool.false_eq_true, if_false]
      rw [List.filter_cons, hpb]
      simp only [Bool.false_eq_true, if_false]
      rw [ih, List.filter_cons, hpb]
      simp

theorem stableInsert_filter_neg {α : Type} (le : α → α → Bool) (p : α → Bool)
    (a : α) (ha : p a = false) :
    ∀ l : List α, (stableInsert le a l).filter p = l.filter p := by
  intro l
  induction l with
  | nil => simp [stableInsert, ha]
  | cons b t ih =>
    by_cases h : le a b = true
    · simp [stableInsert, h, List.filter, ha]
    · simp only [stableInsert, h, Bool.false_eq_true, if_false]
      rw [List.filter_cons, List.filter_cons, ih]

theorem pySorted_filter {α : Type} (le : α → α → Bool) (p : α → Bool)
    (hp : ∀ a b, p a = true → p b = true → le a b = true) :
    ∀ l : List α, (pySorted le l).filter p = l.filter p := by
  intro l
  induction l with
  | nil => simp [pySorted]
  | cons a t ih =>
    cases ha : p a
    · rw [pySorted, stableInsert_filter_neg le p a ha, ih, List.filter_cons, ha]
      simp
    · rw [pySorted, stableInsert_filter_pos le p a (fun b hb => hp a b ha hb) ha,
        ih, List.filter_cons, ha]
      simp

/-- C2: the claim says equal-priority ties are broken by insertion
order.  On `gTie`, `c==1` precedes `a==1` in the node map and both have
priority 2, yet the extraction emits the definition of `a==1` first,
because the sort key is the whole `(priority, parent)` tuple and
`"root" > "b==1"` as strings.  Insertion-order tie-breaking would
produce `[c, a, b]`. -/
theorem C2_counterexample :
    computePriorityMapping 20 gTie = some pmTie
    ∧ nodeIdentifiers gTie = ["c==1", "a==1", "b==1"]
    ∧ pmPriority pmTie "c==1" = pmPriority pmTie "a==1"
    ∧ extractOrderedDefinitions gTie pmTie = [defTA, defTC, defTB]
    ∧ [defTA, defTC, defTB] ≠ [defTC, defTA, defTB] := by
  refine ⟨by decide, by decide, by decide, by decide, by decide⟩

/-- C2 (amended): `extract_ordered_definitions` returns the definitions
of all live nodes sorted in descending order of the full
`(priority, parent-identifier)` pair — priority descending, ties broken
by parent identifier descending (with `None` below everything) — and
only nodes whose whole pair ties keep their node-map insertion order.
Formally: the emitted identifier list is a permutation of the node
identifiers, pairwise non-ascending in the tuple order, it preserves the
relative order of identifiers with equal keys, and the result maps each
identifier to its node's definition. -/
theorem C2_amended (g : Graph) (pm : PMap) :
    (extractSortedIds g pm).Perm (nodeIdentifiers g)
    ∧ List.Pairwise
        (fun i j => pmKeyLt (extractKey pm i) (extractKey pm j) = false)
        (extractSortedIds g pm)
    ∧ (∀ x : PMEntry,
        (extractSortedIds g pm).filter (fun i => extractKey pm i = x)
          = (nodeIdentifiers g).filter (fun i => extractKey pm i = x))
    ∧ extractOrderedDefinitions g pm
        = (extractSortedIds g pm).filterMap
            (fun i => (gnode g i).map (·.definition)) := by
  have htot : ∀ a b, extractLe pm a b = true ∨ extractLe pm b a = true := by
    intro a b
    by_cases h : pmKeyLt (extractKey pm a) (extractKey pm b) = true
    · right
      by_cases h' : pmKeyLt (extractKey pm b) (extractKey pm a) = true
      · have := pmKeyLt_trans h h'
        rw [pmKeyLt_irrefl] at this
        cases this
      · simp [extractLe, h']
    · left
      simp [extractLe, h]
  have htrans : ∀ a b c, extractLe pm a b = true → extractLe pm b c = true →
      extractLe pm a c = true := by
    intro a b c hab hbc
    simp only [extractLe, Bool.not_eq_true'] at hab hbc ⊢
    by_contra hc
    simp only [Bool.not_eq_false] at hc
    by_cases hba : pmKeyLt (extractKey pm b) (extractKey pm a) = true
    · have := pmKeyLt_trans hba hc
      rw [hbc] at this
      cases this
    · simp only [Bool.not_eq_true] at hba
      have heq := pmKeyLt_connex hab hba
      rw [heq] at hc
      rw [hbc] at hc
      cases hc
  refine ⟨pySorted_perm _ _, ?_, ?_, rfl⟩
  · have := pySorted_pairwise (extractLe pm) htot htrans (nodeIdentifiers g)
    refine List.Pairwise.imp ?_ this
    intro i j hij
    simpa [extractLe, Bool.not_eq_true'] using hij
  · intro x
    apply pySorted_filter
    intro a b ha hb
    simp only [decide_eq_true_eq] at ha hb
    simp [extractLe, ha, hb, pmKeyLt_irrefl]

/-- Helper: membership in the fold that builds `conflicts`. -/
theorem conflicts_fold_mem (g : Graph) (i : String) :
    ∀ (l : List (List String)) (acc : List String),
      (i ∈ l.foldl
        (fun acc ids =>
          if ids.length > 1 then acc ++ ids.filter (fun x => nodeExists g x)
          else acc) acc)
      ↔ i ∈ acc ∨ ∃ ids ∈ l, ids.length > 1 ∧ i ∈ ids ∧ nodeExists g i = true := by
  intro l
  induction l with
  | nil => simp
  | cons ids rest ih =>
    intro acc
    rw [List.foldl_cons]
    by_cases hlen : ids.length > 1
    · rw [if_pos hlen, ih]
      constructor
      · rintro (hmem | ⟨ids', hids', hlen', hi, hex⟩)
        · rcases List.mem_append.mp hmem with h | h
          · exact Or.inl h
          · rcases List.mem_filter.mp h with ⟨hi, hex⟩
            exact Or.inr ⟨ids, List.mem_cons_self ids rest, hlen, hi, hex⟩
        · exact Or.inr ⟨ids', List.mem_cons_of_mem ids hids', hlen', hi, hex⟩
      · rintro (hmem | ⟨ids', hids', hlen', hi, hex⟩)
        · exact Or.inl (List.mem_append.mpr (Or.inl hmem))
        · rcases List.mem_cons.mp hids' with rfl | hrest
          · exact Or.inl (List.mem_append.mpr
              (Or.inr (List.mem_filter.mpr ⟨hi, hex⟩)))
          · exact Or.inr ⟨ids', hrest, hlen', hi, hex⟩
    · rw [if_neg hlen, ih]
      constructor
      · rintro (hmem | ⟨ids', hids', hlen', hi, hex⟩)
        · exact Or.inl hmem
        · exact Or.inr ⟨ids', List.mem_cons_of_mem ids hids', hlen', hi, hex⟩
      · rintro (hmem | ⟨ids', hids', hlen', hi, hex⟩)
        · exact Or.inl hmem
        · rcases List.mem_cons.mp hids' with rfl | hrest
          · exact absurd hlen' hlen
          · exact Or.inr ⟨ids', hrest, hlen', hi, hex⟩

/-- C6: the claim says a definition identifier with a single live node
contributes nothing to `conflicts()`.  On `gConfl` the definition `d`
has one live node (`d==1`; `d==2` was removed), yet `conflicts()` still
returns `["d==1"]`, because the `> 1` test counts the recorded
identifier set, not the live nodes. -/
theorem C6_counterexample :
    conflicts gConfl = ["d==1"]
    ∧ nodeIdentifiersFromDefinition gConfl "d" = ["d==1"]
    ∧ nodeExists gConfl "d==2" = false := by
  refine ⟨by decide, by decide, by decide⟩

/-- C6 (amended): `conflicts()` returns exactly the live nodes whose
definition identifier has at least two recorded node identifiers in the
definition map — including identifiers whose nodes were since removed. -/
theorem C6_amended (g : Graph) (i : String) :
    i ∈ conflicts g ↔
      nodeExists g i = true ∧
      ∃ ids ∈ dvalues g.definition_mapping, ids.length > 1 ∧ i ∈ ids := by
  rw [conflicts, conflicts_fold_mem g i (dvalues g.definition_mapping) []]
  constructor
  · rintro (h | ⟨ids, hids, hlen, hi, hex⟩)
    · cases h
    · exact ⟨hex, ids, hids, hlen, hi⟩
  · rintro ⟨hex, ids, hids, hlen, hi⟩
    exact Or.inr ⟨ids, hids, hlen, hi, hex⟩

/-- C7: the claim says a recorded group with a dead member is pruned
from `variant_groups()`.  The code returns the raw values of the variant
map: on `gVar` the group `["a==1", "b==1"]` is returned although
`b==1` is not live. -/
theorem C7_counterexample :
    variantGroups gVar = [["a==1", "b==1"]]
    ∧ nodeExists gVar "b==1" = false := by
  refine ⟨by decide, by decide⟩

/-- C7 (amended): `variant_groups()` returns the recorded groups
unchanged — removing a node never prunes a group; groups disappear only
wholesale through `reset_variant_groups`, which empties the map. -/
theorem C7_amended (g : Graph) (i : String) :
    variantGroups (removeNode g i) = variantGroups g
    ∧ variantGroups (resetVariantGroups g) = [] := by
  exact ⟨rfl, rfl⟩

theorem pyVersionLt_irrefl (a : PyVersion) : pyVersionLt a a = false := by
  cases a <;> simp [pyVersionLt]

theorem pyVersionLt_trans {a b c : PyVersion} (h1 : pyVersionLt a b = true)
    (h2 : pyVersionLt b c = true) : pyVersionLt a c = true := by
  cases a <;> cases b <;> cases c <;> simp [pyVersionLt] at h1 h2 ⊢ <;> omega

theorem pyVersionLt_connex {a b : PyVersion} (h1 : pyVersionLt a b = false)
    (h2 : pyVersionLt b a = false) : a = b := by
  cases a <;> cases b <;> simp [pyVersionLt] at h1 h2 ⊢ <;> omega

/-- In a well-formed table, looking up a stored definition's version
string returns that very definition. -/
theorem wf_dget_version {inner : DefEntry} (hwf : WfEntry inner)
    {d : Definition} (hd : d ∈ dvalues inner) :
    dget inner (versionStr d.version) = some d := by
  rcases List.mem_map.mp hd with ⟨e, he, hev⟩
  have hkey : e.1 = versionStr e.2.version := hwf.1 e he
  have := dget_of_mem_nodup inner e he hwf.2
  rw [hkey, hev] at this
  exact this

/-- Splitting lemma for `find?`. -/
theorem find?_split {α : Type} (p : α → Bool) :
    ∀ (l : List α) (a : α), l.find? p = some a →
      p a = true ∧ ∃ l1 l2, l = l1 ++ a :: l2 ∧ ∀ x ∈ l1, p x = false := by
  intro l
  induction l with
  | nil => intro a h; simp [List.find?] at h
  | cons b t ih =>
    intro a h
    rw [List.find?] at h
    cases hb : p b with
    | true =>
      rw [hb] at h
      obtain rfl : b = a := Option.some.inj h
      exact ⟨hb, [], t, rfl, by simp⟩
    | false =>
      rw [hb] at h
      rcases ih a h with ⟨hp, l1, l2, heq, hfail⟩
      refine ⟨hp, b :: l1, l2, by rw [heq]; rfl, ?_⟩
      intro x hx
      rcases List.mem_cons.mp hx with rfl | hx'
      · exact hb
      · exact hfail x hx'

theorem notLt_le_total {α : Type} (lt : α → α → Bool)
    (hirr : ∀ a, lt a a = false)
    (htr : ∀ {a b c}, lt a b = true → lt b c = true → lt a c = true)
    (a b : α) : (! lt a b) = true ∨ (! lt b a) = true := by
  by_cases h : lt a b = true
  · right
    by_cases h' : lt b a = true
    · have := htr h h'
      rw [hirr a] at this
      cases this
    · simp [h']
  · left
    simp [h]

theorem notLt_le_trans {α : Type} (lt : α → α → Bool)
    (htr : ∀ {a b c}, lt a b = true → lt b c = true → lt a c = true)
    (hco : ∀ {a b}, lt a b = false → lt b a = false → a = b)
    {a b c : α} (h1 : (! lt a b) = true) (h2 : (! lt b c) = true) :
    (! lt a c) = true := by
  simp only [Bool.not_eq_true'] at h1 h2 ⊢
  by_contra hc
  simp only [Bool.not_eq_false] at hc
  by_cases hba : lt b a = true
  · have := htr hba hc
    rw [h2] at this
    cases this
  · simp only [Bool.not_eq_true] at hba
    have heq := hco h1 hba
    rw [heq, h2] at hc
    cases hc

theorem queryVersions_perm (inner : DefEntry) :
    (queryVersions inner).Perm ((dvalues inner).map (·.version)) :=
  pySorted_perm _ _

theorem queryVersions_pairwise (inner : DefEntry) :
    List.Pairwise (fun a b => pyVersionLt a b = false) (queryVersions inner) := by
  have := pySorted_pairwise (fun a b => ! pyVersionLt a b)
    (notLt_le_total pyVersionLt pyVersionLt_irrefl (fun h1 h2 => pyVersionLt_trans h1 h2))
    (fun a b c h1 h2 => notLt_le_trans pyVersionLt
      (fun h1 h2 => pyVersionLt_trans h1 h2)
      (fun h1 h2 => pyVersionLt_connex h1 h2) h1 h2)
    ((dvalues inner).map (·.version))
  refine List.Pairwise.imp ?_ this
  intro a b h
  simpa using h

/-- Every version of a well-formed table pins down the stored
definition carrying it. -/
theorem version_pin {inner : DefEntry} (hwf : WfEntry inner) {ver : PyVersion}
    (hver : ver ∈ (dvalues inner).map (·.version)) :
    ∃ d0, dget inner (versionStr ver) = some d0 ∧ d0.version = ver ∧
      d0 ∈ dvalues inner := by
  rcases List.mem_map.mp hver with ⟨d0, hd0, hv⟩
  subst hv
  exact ⟨d0, wf_dget_version hwf hd0, rfl, hd0⟩

/-- On the versions actually present, the loop predicate of `query` is
exactly "the version satisfies the specifier". -/
theorem queryPred_eq (req : Requirement) {inner : DefEntry} (hwf : WfEntry inner)
    {ver : PyVersion} (hver : ver ∈ (dvalues inner).map (·.version)) :
    queryPred req inner ver = specContains req.specifier ver := by
  rcases version_pin hwf hver with ⟨d0, hget, hv, _⟩
  simp only [queryPred, hget, hv]

/-- C4: for a well-formed registry table, `query` returns the definition
with the highest version satisfying the requirement's specifier; it
fails with `RequestNotFound` when the name has no entry, when the
recorded versions mix the unknown sentinel with at least one concrete
version, or when no version satisfies the specifier. -/
theorem C4_query (req : Requirement) (dm : DefMap)
    (hwf : ∀ inner, dget dm req.name = some inner → WfEntry inner) :
    (∀ d, query req dm = .ok d ↔
      ∃ inner, dget dm req.name = some inner ∧
        ¬ (PyVersion.unknown ∈ (dvalues inner).map (·.version) ∧
           (dvalues inner).length > 1) ∧
        d ∈ dvalues inner ∧
        specContains req.specifier d.version = true ∧
        (∀ d' ∈ dvalues inner, specContains req.specifier d'.version = true →
          pyVersionLt d.version d'.version = false))
    ∧ (query req dm = .error .requestNotFound ↔
        dget dm req.name = none ∨
        ∃ inner, dget dm req.name = some inner ∧
          ((PyVersion.unknown ∈ (dvalues inner).map (·.version) ∧
            (dvalues inner).length > 1) ∨
           (∀ d' ∈ dvalues inner,
             specContains req.specifier d'.version = false))) := by
  cases hin : dget dm req.name with
  | none =>
    constructor
    · intro d
      constructor
      · intro h
        simp only [query, hin] at h
        exact Except.noConfusion h
      · rintro ⟨inner, hinner, _⟩
        cases hinner
    · constructor
      · intro _
        exact Or.inl rfl
      · intro _
        simp only [query, hin]
  | some inner =>
    have hwfi := hwf inner hin
    have hperm := queryVersions_perm inner
    have hlen : (queryVersions inner).length
        = ((dvalues inner).map (·.version)).length := hperm.length_eq
    have hmemiff : ∀ x : PyVersion,
        x ∈ queryVersions inner ↔ x ∈ (dvalues inner).map (·.version) :=
      fun x => hperm.mem_iff
    by_cases hmix : PyVersion.unknown ∈ (dvalues inner).map (·.version) ∧
        (dvalues inner).length > 1
    · have hcond : (decide (PyVersion.unknown ∈ queryVersions inner)
          && decide ((queryVersions inner).length > 1)) = true := by
        rw [Bool.and_eq_true, decide_eq_true_eq, decide_eq_true_eq]
        refine ⟨(hmemiff _).mpr hmix.1, ?_⟩
        rw [hlen]
        simpa using hmix.2
      have hq : query req dm = .error .requestNotFound := by
        simp only [query, hin, hcond, if_true]
      constructor
      · intro d
        constructor
        · intro h
          rw [hq] at h
          exact Except.noConfusion h
        · rintro ⟨inner', hinner', hnomix, _⟩
          obtain rfl : inner = inner' := Option.some.inj hinner'
          exact absurd hmix hnomix
      · constructor
        · intro _
          exact Or.inr ⟨inner, rfl, Or.inl hmix⟩
        · intro _
          exact hq
    · have hcond : (decide (PyVersion.unknown ∈ queryVersions inner)
          && decide ((queryVersions inner).length > 1)) = false := by
        rw [Bool.and_eq_false_iff]
        by_cases hu : PyVersion.unknown ∈ (dvalues inner).map (·.version)
        · right
          rw [decide_eq_false_iff_not, hlen]
          intro hl
          exact hmix ⟨hu, by simpa using hl⟩
        · left
          rw [decide_eq_false_iff_not]
          exact fun hc => hu ((hmemiff _).mp hc)
      cases hfind : (queryVersions inner).find? (queryPred req inner) with
      | some ver =>
        rcases find?_split _ _ _ hfind with ⟨hpred, l1, l2, hsplit, hfail⟩
        have hversort : ver ∈ queryVersions inner := by
          rw [hsplit]
          exact List.mem_append.mpr (Or.inr (List.mem_cons_self ver l2))
        have hvermem : ver ∈ (dvalues inner).map (·.version) :=
          (hmemiff ver).mp hversort
        rcases version_pin hwfi hvermem with ⟨d0, hget0, hv0, hd0⟩
        have hq : query req dm = .ok d0 := by
          simp only [query, hin, hcond, Bool.false_eq_true, if_false, hfind, hget0]
        have hsat0 : specContains req.specifier d0.version = true := by
          rw [hv0]
          rw [queryPred_eq req hwfi hvermem] at hpred
          exact hpred
        have hmax0 : ∀ d' ∈ dvalues inner,
            specContains req.specifier d'.version = true →
            pyVersionLt d0.version d'.version = false := by
          intro d' hd' hsat'
          have hver' : d'.version ∈ (dvalues inner).map (·.version) :=
            List.mem_map_of_mem (·.version) hd'
          have hver'sort : d'.version ∈ queryVersions inner := (hmemiff _).mpr hver'
          rw [hsplit] at hver'sort
          rcases List.mem_append.mp hver'sort with hl1 | hl2
          · have hfl := hfail d'.version hl1
            rw [queryPred_eq req hwfi hver'] at hfl
            rw [hsat'] at hfl
            cases hfl
          · rcases List.mem_cons.mp hl2 with heq | hl2'
            · rw [hv0, heq]
              exact pyVersionLt_irrefl _
            · have hpw := queryVersions_pairwise inner
              rw [hsplit] at hpw
              rcases List.pairwise_append.mp hpw with ⟨_, hp2, _⟩
              rcases List.pairwise_cons.mp hp2 with ⟨hvl2, _⟩
              rw [hv0]
              exact hvl2 d'.version hl2'
        constructor
        · intro d
          constructor
          · intro h
            rw [hq] at h
            obtain rfl : d0 = d := Except.ok.inj h
            exact ⟨inner, rfl, hmix, hd0, hsat0, hmax0⟩
          · rintro ⟨inner', hinner', hnomix, hd, hsat, hmaxd⟩
            obtain rfl : inner = inner' := Option.some.inj hinner'
            have h1 : pyVersionLt d.version d0.version = false :=
              hmaxd d0 hd0 hsat0
            have h2 : pyVersionLt d0.version d.version = false :=
              hmax0 d hd hsat
            have hveq : d.version = d0.version := pyVersionLt_connex h1 h2
            have hgd : dget inner (versionStr d.version) = some d :=
              wf_dget_version hwfi hd
            rw [hveq, hv0, hget0] at hgd
            obtain rfl : d0 = d := Option.some.inj hgd
            exact hq
        · constructor
          · intro h
            rw [hq] at h
            exact Except.noConfusion h
          · rintro (hnone | ⟨inner', hinner', hbad⟩)
            · cases hnone
            · obtain rfl : inner = inner' := Option.some.inj hinner'
              rcases hbad with hm | hallfail
              · exact absurd hm hmix
              · have hfl := hallfail d0 hd0
                rw [hsat0] at hfl
                cases hfl
      | none =>
        have hq : query req dm = .error .requestNotFound := by
          simp only [query, hin, hcond, Bool.false_eq_true, if_false, hfind]
        have hallfail : ∀ d' ∈ dvalues inner,
            specContains req.specifier d'.version = false := by
          intro d' hd'
          have hver' : d'.version ∈ (dvalues inner).map (·.version) :=
            List.mem_map_of_mem (·.version) hd'
          have hver'sort : d'.version ∈ queryVersions inner := (hmemiff _).mpr hver'
          have hnf := List.find?_eq_none.mp hfind d'.version hver'sort
          rw [queryPred_eq req hwfi hver'] at hnf
          cases hs : specContains req.specifier d'.version
          · rfl
          · exact absurd hs hnf
        constructor
        · intro d
          constructor
          · intro h
            rw [hq] at h
            exact Except.noConfusion h
          · rintro ⟨inner', hinner', _, hd, hsat, _⟩
            obtain rfl : inner = inner' := Option.some.inj hinner'
            have hfl := hallfail d hd
            rw [hsat] at hfl
            cases hfl
        · constructor
          · intro _
            exact Or.inr ⟨inner, rfl, Or.inr hallfail⟩
          · intro _
            exact hq

/-- Witness for C4: on the concrete registry, `query` serves version 1
for `pkg <= 1` (version 2 fails the specifier). -/
theorem C4_query_witness : query reqW dmW = .ok defW1 := by
  refine ((C4_query reqW dmW ?_).1 defW1).mpr
    ⟨innerW, by decide, by decide, by decide, by decide, by decide⟩
  intro inner hinner
  have hpin : innerW = inner := by
    have h : dget dmW reqW.name = some innerW := by decide
    rw [h] at hinner
    exact Option.some.inj hinner
  rw [← hpin]
  exact ⟨by decide, by decide⟩

theorem validatePairs_error_iff (n1 n2 : GNode)
    (ps : List (Requirement × Requirement)) :
    (∃ e, validatePairs n1 n2 ps = .error e) ↔
      ∃ p ∈ ps, conflictCond n1 n2 p.1 p.2 = true := by
  induction ps with
  | nil => simp [validatePairs]
  | cons p rest ih =>
    rcases p with ⟨r1, r2⟩
    by_cases hc : conflictCond n1 n2 r1 r2 = true
    · simp [validatePairs, hc]
    · simp only [validatePairs, hc, Bool.false_eq_true, if_false]
      rw [ih]
      constructor
      · rintro ⟨q, hq, hcq⟩
        exact ⟨q, List.mem_cons_of_mem _ hq, hcq⟩
      · rintro ⟨q, hq, hcq⟩
        rcases List.mem_cons.mp hq with rfl | hq'
        · exact absurd hcq hc
        · exact ⟨q, hq', hcq⟩

theorem validateAgainst_error_iff (g : Graph) (n1 : GNode)
    (mapping1 : List (Requirement × String)) (ids : List String) :
    (∃ e, validateAgainst g n1 mapping1 ids = .error e) ↔
      ∃ id2 ∈ ids, ∃ n2, gnode g id2 = some n2 ∧
        ∃ p ∈ pyCombinations (mapping1.map (·.1)
          ++ (computeRequirementMapping g id2).map (·.1)),
          conflictCond n1 n2 p.1 p.2 = true := by
  induction ids with
  | nil => simp [validateAgainst]
  | cons id2 rest ih =>
    cases hn2 : gnode g id2 with
    | none =>
      simp only [validateAgainst, hn2]
      rw [ih]
      constructor
      · rintro ⟨i, hi, hrest⟩
        exact ⟨i, List.mem_cons_of_mem _ hi, hrest⟩
      · rintro ⟨i, hi, n2, hn2', hrest⟩
        rcases List.mem_cons.mp hi with rfl | hi'
        · rw [hn2] at hn2'
          cases hn2'
        · exact ⟨i, hi', n2, hn2', hrest⟩
    | some n2 =>
      simp only [validateAgainst, hn2]
      cases hvp : validatePairs n1 n2
        (pyCombinations (mapping1.map (·.1)
          ++ (computeRequirementMapping g id2).map (·.1))) with
      | ok u =>
        simp only
        rw [ih]
        constructor
        · rintro ⟨i, hi, hrest⟩
          exact ⟨i, List.mem_cons_of_mem _ hi, hrest⟩
        · rintro ⟨i, hi, n2', hn2', p, hp, hcp⟩
          rcases List.mem_cons.mp hi with rfl | hi'
          · rw [hn2] at hn2'
            obtain rfl : n2 = n2' := Option.some.inj hn2'
            have : ∃ e, validatePairs n1 n2
                (pyCombinations (mapping1.map (·.1)
                  ++ (computeRequirementMapping g i).map (·.1))) = .error e :=
              (validatePairs_error_iff n1 n2 _).mpr ⟨p, hp, hcp⟩
            rcases this with ⟨e, he⟩
            rw [hvp] at he
            cases he
          · exact ⟨i, hi', n2', hn2', p, hp, hcp⟩
      | error e =>
        simp only
        constructor
        · intro _
          have := (validatePairs_error_iff n1 n2 _).mp ⟨e, hvp⟩
          rcases this with ⟨p, hp, hcp⟩
          exact ⟨id2, List.mem_cons_self _ _, n2, hn2, p, hp, hcp⟩
        · intro _
          exact ⟨e, rfl⟩

/-- C5: the claim says the resolver raises only when (i) neither version
satisfies both specifiers AND the two node versions differ, or (ii) the
extras differ.  On `gValid` both nodes carry version 1 and every pair of
requirements has equal (empty) extras, so the claim predicts acceptance;
the code raises `GraphResolutionError` because its version test has no
versions-differ conjunct. -/
theorem C5_counterexample :
    validateNodeRequirements gValid "d[V1]==1" ["d[V2]==1"]
      = .error .graphResolutionError
    ∧ (gnode gValid "d[V1]==1").map (fun n => n.definition.version)
        = (gnode gValid "d[V2]==1").map (fun n => n.definition.version)
    ∧ (∀ p ∈ pyCombinations
        ((computeRequirementMapping gValid "d[V1]==1").map (·.1)
          ++ (computeRequirementMapping gValid "d[V2]==1").map (·.1)),
        setEqb p.1.extras p.2.extras = true) := by
  refine ⟨by decide, by decide, by decide⟩

/-- C5 (amended): during conflict resolution the resolver raises
`GraphResolutionError` exactly when, for some other conflicting node,
some pair of requirements drawn (in combination order) from the
concatenated parent-requirement lists of the two nodes satisfies:
node1's version fails the second requirement's specifier and node2's
version fails the first requirement's specifier, or the two
requirements' extras sets differ.  No versions-differ test is applied. -/
theorem C5_amended (g : Graph) (identifier : String) (ids : List String)
    (n1 : GNode) (h1 : gnode g identifier = some n1) :
    (∃ e, validateNodeRequirements g identifier ids = .error e) ↔
      ∃ id2 ∈ ids, ∃ n2, gnode g id2 = some n2 ∧
        ∃ p ∈ pyCombinations
          ((computeRequirementMapping g identifier).map (·.1)
            ++ (computeRequirementMapping g id2).map (·.1)),
          ((specContains p.2.specifier n1.definition.version = false ∧
            specContains p.1.specifier n2.definition.version = false) ∨
           setEqb p.1.extras p.2.extras = false) := by
  rw [validateNodeRequirements]
  rw [h1]
  rw [validateAgainst_error_iff g n1 (computeRequirementMapping g identifier) ids]
  constructor
  · rintro ⟨id2, hid2, n2, hn2, p, hp, hcp⟩
    refine ⟨id2, hid2, n2, hn2, p, hp, ?_⟩
    rw [conflictCond, Bool.or_eq_true, Bool.and_eq_true] at hcp
    rcases hcp with ⟨ha, hb⟩ | hx
    · exact Or.inl ⟨by simpa using ha, by simpa using hb⟩
    · exact Or.inr (by simpa using hx)
  · rintro ⟨id2, hid2, n2, hn2, p, hp, hcp⟩
    refine ⟨id2, hid2, n2, hn2, p, hp, ?_⟩
    rw [conflictCond, Bool.or_eq_true, Bool.and_eq_true]
    rcases hcp with ⟨ha, hb⟩ | hx
    · exact Or.inl ⟨by simpa using ha, by simpa using hb⟩
    · exact Or.inr (by simpa using hx)

/-- Witness for C5 (amended): on the concrete graph the validation
raises, and the characterisation exhibits the offending pair. -/
theorem C5_amended_witness :
    gnode gValid "d[V1]==1" = some ⟨defDV1, ["root"]⟩ ∧
    (∃ e, validateNodeRequirements gValid "d[V1]==1" ["d[V2]==1"]
      = .error e) := by
  refine ⟨by decide, ?_⟩
  refine (C5_amended gValid "d[V1]==1" ["d[V2]==1"] ⟨defDV1, ["root"]⟩
    (by decide)).mpr ?_
  refine ⟨"d[V2]==1", by decide, ⟨defDV2, ["root"]⟩, by decide,
    (reqGe2, reqGe2), by decide, Or.inl ⟨by decide, by decide⟩⟩

theorem divideStep_length (gl : List Graph) (grp : List String) :
    (divideStep gl grp).length = gl.length * grp.length := by
  induction gl with
  | nil => simp [divideStep]
  | cons h t ih =>
    simp only [divideStep] at ih ⊢
    rw [List.flatMap_cons, List.length_append, ih, List.length_map,
      List.length_cons]
    ring

theorem divide_fold_length (groups : List (List String)) :
    ∀ gl : List Graph,
      (groups.foldl divideStep gl).length
        = gl.length * (groups.map List.length).prod := by
  induction groups with
  | nil => intro gl; simp
  | cons grp rest ih =>
    intro gl
    rw [List.foldl_cons, ih, divideStep_length, List.map_cons, List.prod_cons]
    ring

theorem divide_fold_structure (groups : List (List String)) :
    ∀ gl : List Graph,
      groups.foldl divideStep gl
        = gl.flatMap fun h =>
            (selections groups).map fun sel => applySel h (groups.zip sel) := by
  induction groups with
  | nil =>
    intro gl
    simp [selections, applySel]
  | cons grp rest ih =>
    intro gl
    rw [List.foldl_cons, ih]
    simp only [divideStep, List.flatMap_assoc]
    congr 1
    funext h
    rw [show selections (grp :: rest)
        = grp.flatMap (fun c => (selections rest).map (c :: ·)) from rfl]
    rw [List.map_flatMap, List.flatMap_map]
    congr 1
    funext c
    rw [List.map_map]
    congr 1

/-- C3 (amended): when the popped graph has variant groups, `divide`
creates one alternative per element of the Cartesian product of variant
choices (count = product of group sizes); groups are processed sorted
ascending by the priority of each group's *first* member; each
alternative is the graph with all non-chosen members of every group
removed and the variant map reset; the alternatives are appended to the
stack in reverse enumeration order. -/
theorem C3_amended (g : Graph) (pm : PMap) (stack : List Graph)
    (hne : (variantGroups g).length ≠ 0) :
    (divide g pm stack).1 = ((variantGroups g).map List.length).prod
    ∧ (divide g pm stack).2 = stack ++
        (((selections (divideSortedGroups g pm)).map fun sel =>
          resetVariantGroups
            (applySel g ((divideSortedGroups g pm).zip sel))).reverse)
    ∧ (divideSortedGroups g pm).Perm (variantGroups g)
    ∧ List.Pairwise (fun g1 g2 =>
        optNatLt (divideGroupsKey pm g2) (divideGroupsKey pm g1) = false)
        (divideSortedGroups g pm) := by
  have hperm : (divideSortedGroups g pm).Perm (variantGroups g) :=
    pySorted_perm _ _
  have hstruct := divide_fold_structure (divideSortedGroups g pm) [g]
  have hlen := divide_fold_length (divideSortedGroups g pm) [g]
  refine ⟨?_, ?_, hperm, ?_⟩
  · rw [divide, if_neg hne]
    simp only [hlen, List.length_cons, List.length_nil]
    rw [hperm.map List.length |>.prod_eq]
    ring
  · rw [divide, if_neg hne]
    simp only [hstruct]
    rw [List.flatMap_cons, List.flatMap_nil, List.append_nil, List.map_reverse]
    rw [List.map_map]
    rfl
  · have htot : ∀ a b : List String,
        (! optNatLt (divideGroupsKey pm b) (divideGroupsKey pm a)) = true ∨
        (! optNatLt (divideGroupsKey pm a) (divideGroupsKey pm b)) = true := by
      intro a b
      exact notLt_le_total optNatLt (fun x => optNatLt_irrefl x)
        (fun h1 h2 => optNatLt_trans h1 h2)
        (divideGroupsKey pm b) (divideGroupsKey pm a)
    have htrans : ∀ a b c : List String,
        (! optNatLt (divideGroupsKey pm b) (divideGroupsKey pm a)) = true →
        (! optNatLt (divideGroupsKey pm c) (divideGroupsKey pm b)) = true →
        (! optNatLt (divideGroupsKey pm c) (divideGroupsKey pm a)) = true := by
      intro a b c h1 h2
      exact notLt_le_trans optNatLt (fun h1 h2 => optNatLt_trans h1 h2)
        (fun h1 h2 => optNatLt_connex h1 h2) h2 h1
    have := pySorted_pairwise
      (fun g1 g2 => ! optNatLt (divideGroupsKey pm g2) (divideGroupsKey pm g1))
      htot (fun a b c h1 h2 => htrans a b c h1 h2) (variantGroups g)
    refine List.Pairwise.imp ?_ this
    intro a b h
    simpa using h

/-- C3: the claim sorts variant groups by the minimum priority of any
member; the code sorts by the priority of the group's first member.  On
`gDiv` the minimum of group `a` is 1 (so the claim processes `a` first)
while its first member has priority 5 (so the code processes `b` first);
the resulting alternative stacks differ. -/
theorem C3_counterexample :
    divide gDiv pmDiv [] ≠ divideClaim gDiv pmDiv []
    ∧ divideGroupsKey pmDiv ["a1", "a2"] = some 5
    ∧ divideGroupsKeyClaim pmDiv ["a1", "a2"] = some 1
    ∧ ((divide gDiv pmDiv []).2.map fun h => dkeys h.node_mapping)
        = [["a2", "b2"], ["a1", "b2"], ["a2", "b1"], ["a1", "b1"]]
    ∧ ((divideClaim gDiv pmDiv []).2.map fun h => dkeys h.node_mapping)
        = [["a2", "b2"], ["a2", "b1"], ["a1", "b2"], ["a1", "b1"]] := by
  refine ⟨by decide, by decide, by decide, by decide, by decide⟩

/-- Witness for C3 (amended) on `gDiv`: the group count is the product
of the group sizes. -/
theorem C3_amended_witness :
    (variantGroups gDiv).length ≠ 0
    ∧ (divide gDiv pmDiv []).1
        = ((variantGroups gDiv).map List.length).prod := by
  refine ⟨by decide, (C3_amended gDiv pmDiv [] (by decide)).1⟩

theorem lget_lset_self {α : Type} :
    ∀ (l : List α) (r : Nat) (v : α), r < l.length →
      lget (lset l r v) r = some v := by
  intro l
  induction l with
  | nil => intro r v h; simp at h
  | cons a t ih =>
    intro r v h
    cases r with
    | zero => rfl
    | succ n =>
      rw [List.length_cons] at h
      exact ih n v (by omega)

theorem lget_append_left {α : Type} :
    ∀ (l1 l2 : List α) (r : Nat), r < l1.length →
      lget (l1 ++ l2) r = lget l1 r := by
  intro l1
  induction l1 with
  | nil => intro l2 r h; simp at h
  | cons a t ih =>
    intro l2 r h
    cases r with
    | zero => rfl
    | succ n =>
      rw [List.length_cons] at h
      exact ih l2 n (by omega)

theorem lget_some_lt {α : Type} :
    ∀ (l : List α) (r : Nat) (v : α), lget l r = some v → r < l.length := by
  intro l
  induction l with
  | nil => intro r v h; cases h
  | cons a t ih =>
    intro r v h
    cases r with
    | zero => simp
    | succ n =>
      rw [List.length_cons]
      have := ih n v h
      omega

/-- C8: the claim says `copy()` is a deep copy, so mutating the copy
never affects the original.  Adding a parent to a node through the copy
changes the original's view of that node's parent set, and creating a
link under the already-present parent `root` through the copy makes the
link visible through the original: the copy is shallow. -/
theorem C8_counterexample :
    viewParents hPy0 gPy0 "a==1" = some ["root"]
    ∧ viewParents (addParentPy hPy0 (copyPy gPy0) "a==1" "p") gPy0 "a==1"
        = some ["root", "p"]
    ∧ viewLink hPy0 gPy0 "root" "b==1" = none
    ∧ createLinkPy hPy0 (copyPy gPy0) "b==1" "root" lkB
        = .ok (hPy1, copyPy gPy0)
    ∧ viewLink hPy1 gPy0 "root" "b==1" = some lkB := by
  refine ⟨by decide, by decide, by decide, by decide, by decide⟩

/-- C8 (amended): `copy()` copies the outer maps only.  Removing a node
from the copy touches only that copy's own node map (the heap is
untouched by construction); creating a link under a parent key the
graph does not yet hold allocates a fresh inner dict, leaving every link
and parent view of the original unchanged; but adding a parent
identifier through the copy mutates the shared node object, changing
the original's view in the same way. -/
theorem C8_amended (h : PyHeap) (g : PyGraph) (identifier parent : String)
    (lk : Link) (hwf : WfLinkRefs h g)
    (hfree : dget g.link_mapping parent = none) :
    (∀ x, viewParents (addParentPy h (copyPy g) identifier parent) g x
        = viewParents (addParentPy h g identifier parent) g x)
    ∧ (∀ l, viewParents h g identifier = some l →
        viewParents (addParentPy h (copyPy g) identifier parent) g identifier
          = some (setAdd l parent))
    ∧ (∀ h' g', createLinkPy h (copyPy g) identifier parent lk
          = .ok (h', g') →
        (∀ p c, viewLink h' g p c = viewLink h g p c)
        ∧ (∀ x, viewParents h' g x = viewParents h g x)) := by
  refine ⟨fun x => rfl, ?_, ?_⟩
  · intro l hview
    cases hr : dget g.node_mapping identifier with
    | none =>
      rw [viewParents, hr] at hview
      cases hview
    | some r =>
      cases hn : lget h.nodes r with
      | none =>
        rw [viewParents, hr] at hview
        simp [hn] at hview
      | some n =>
        have hl : n.parent_identifiers = l := by
          rw [viewParents, hr] at hview
          simpa [hn] using hview
        have hlt : r < h.nodes.length := lget_some_lt h.nodes r n hn
        have hstep : addParentPy h (copyPy g) identifier parent
            = { h with nodes := lset h.nodes r ⟨n.definition, setAdd n.parent_identifiers parent⟩ } := by
          simp only [addParentPy, copyPy, hr, hn]
        rw [hstep, viewParents, hr]
        simp only [Option.some_bind]
        rw [lget_lset_self h.nodes r _ hlt]
        simp [hl]
  · intro h' g' hok
    simp only [createLinkPy, copyPy, hfree] at hok
    have hpair := Except.ok.inj hok
    have hh : ({ h with linkDicts := h.linkDicts ++ [dset [] identifier lk] }
        : PyHeap) = h' := congrArg Prod.fst hpair
    constructor
    · intro p c
      cases hrp : dget g.link_mapping p with
      | none =>
        rw [viewLink, viewLink, hrp]
        rfl
      | some r =>
        have hmem := dget_mem g.link_mapping p r hrp
        have hlt : r < h.linkDicts.length := hwf (p, r) hmem
        rw [viewLink, viewLink, hrp]
        simp only [Option.some_bind]
        rw [← hh]
        simp only
        rw [lget_append_left h.linkDicts _ r hlt]
    · intro x
      rw [viewParents, viewParents, ← hh]

/-- Witness for C8 (amended): adding parent `q` through the copy is
visible through the original graph's node map. -/
theorem C8_amended_witness :
    WfLinkRefs hPy0 gPy0
    ∧ viewParents (addParentPy hPy0 (copyPy gPy0) "a==1" "q") gPy0 "a==1"
        = some (setAdd ["root"] "q") := by
  refine ⟨by decide, ?_⟩
  exact (C8_amended hPy0 gPy0 "a==1" "q" lkB (by decide) (by decide)).2.1
    ["root"] (by decide)

theorem dmem_dset_mono {α : Type} (d : Dict α) (k : String) (v : α)
    (i : String) (h : dmem d i = true) : dmem (dset d k v) i = true := by
  by_cases hik : i = k
  · subst hik
    exact dmem_dset_self d i v
  · rw [dmem_dset_ne d k i v hik]
    exact h

theorem filter_length_mono {α : Type} (p q : α → Bool)
    (h : ∀ x, q x = true → p x = true) :
    ∀ l : List α, (l.filter q).length ≤ (l.filter p).length := by
  intro l
  induction l with
  | nil => simp
  | cons a t ih =>
    cases hq : q a with
    | true =>
      have hpa := h a hq
      simp only [List.filter_cons, hq, hpa, if_pos, List.length_cons]
      omega
    | false =>
      cases hp : p a
      · simp only [List.filter_cons, hq, hp, Bool.false_eq_true, if_false]
        omega
      · simp only [List.filter_cons, hq, hp, Bool.false_eq_true, if_false,
          if_pos, List.length_cons]
        omega

theorem filter_length_strict {α : Type} [DecidableEq α] (p q : α → Bool)
    (h : ∀ x, q x = true → p x = true) (i : α) (hp : p i = true)
    (hq : q i = false) :
    ∀ l : List α, l.Nodup → i ∈ l →
      (l.filter q).length < (l.filter p).length := by
  intro l
  induction l with
  | nil => intro _ hmem; cases hmem
  | cons a t ih =>
    intro hnd hmem
    rw [List.nodup_cons] at hnd
    rcases List.mem_cons.mp hmem with rfl | hmt
    · simp only [List.filter_cons, hp, hq, if_pos, Bool.false_eq_true,
        if_false, List.length_cons]
      have := filter_length_mono p q h t
      omega
    · have hlt := ih hnd.2 hmt
      cases hqa : q a with
      | true =>
        have hpa := h a hqa
        simp only [List.filter_cons, hqa, hpa, if_pos, List.length_cons]
        omega
      | false =>
        cases hpa : p a
        · simp only [List.filter_cons, hqa, hpa, Bool.false_eq_true, if_false]
          omega
        · simp only [List.filter_cons, hqa, hpa, Bool.false_eq_true, if_false,
            if_pos, List.length_cons]
          omega

/-- Node growth never increases the count of missing registry
identifiers. -/
theorem missingCount_mono {dm : DefMap} {g g' : Graph} (h : nodesSub g g') :
    missingCount dm g' ≤ missingCount dm g := by
  apply filter_length_mono
  intro x hx
  simp only [Bool.not_eq_true'] at hx ⊢
  cases hm : dmem g.node_mapping x with
  | false => rfl
  | true =>
    rw [h x hm] at hx
    cases hx

/-- Creating a node for a missing registry identifier strictly decreases
the missing count. -/
theorem missingCount_strict {dm : DefMap} {g : Graph} {i : String}
    (hnew : dmem g.node_mapping i = false) (hreg : i ∈ registryIdents dm)
    (n : GNode) :
    missingCount dm
      { g with node_mapping := dset g.node_mapping i n }
      < missingCount dm g := by
  apply filter_length_strict
  · intro x hx
    simp only [Bool.not_eq_true'] at hx ⊢
    cases hm : dmem g.node_mapping x with
    | false => rfl
    | true =>
      rw [dmem_dset_mono g.node_mapping i n x hm] at hx
      cases hx
  · simpa using hnew
  · simp [dmem_dset_self]
  · exact List.nodup_dedup _
  · exact hreg

/-- `query` only ever returns a stored definition. -/
theorem query_ok_mem {req : Requirement} {dm : DefMap} {d : Definition}
    (h : query req dm = .ok d) :
    ∃ inner, dget dm req.name = some inner ∧ d ∈ dvalues inner := by
  cases hin : dget dm req.name with
  | none =>
    simp only [query, hin] at h
    exact Except.noConfusion h
  | some inner =>
    simp only [query, hin] at h
    cases hcond : (decide (PyVersion.unknown ∈ queryVersions inner)
        && decide ((queryVersions inner).length > 1)) with
    | true =>
      rw [hcond] at h
      simp at h
    | false =>
      rw [hcond] at h
      simp only [Bool.false_eq_true, if_false] at h
      cases hfind : (queryVersions inner).find? (queryPred req inner) with
      | none =>
        rw [hfind] at h
        exact Except.noConfusion h
      | some ver =>
        rw [hfind] at h
        cases hget : dget inner (versionStr ver) with
        | none =>
          simp only [hget] at h
          exact Except.noConfusion h
        | some d0 =>
          simp only [hget] at h
          obtain rfl : d0 = d := Except.ok.inj h
          exact ⟨inner, rfl,
            List.mem_map.mpr ⟨(versionStr ver, d0), dget_mem _ _ _ hget, rfl⟩⟩

/-- Every definition `wiz.definition.get` can return generates an
identifier recorded in the registry universe. -/
theorem getDefs_ident_mem {req : Requirement} {dm : DefMap}
    {defs : List Definition} (h : getDefs req dm = .ok defs) :
    ∀ d ∈ defs, generateIdentifier d ∈ registryIdents dm := by
  intro d hd
  cases hq : query req dm with
  | error e =>
    simp only [getDefs, hq] at h
    exact Except.noConfusion h
  | ok d0 =>
    simp only [getDefs, hq] at h
    obtain ⟨inner, hin, hd0⟩ := query_ok_mem hq
    have hdm : (req.name, inner) ∈ dm := dget_mem _ _ _ hin
    rcases List.mem_map.mp hd0 with ⟨entry, hentry, hval⟩
    have hbase : ∀ x, (match entry.2.variants with
        | [] => [generateIdentifier entry.2]
        | vs => vs.map fun v => generateIdentifier (mergeVariant entry.2 v)) =
          x → generateIdentifier d ∈ x → generateIdentifier d ∈ registryIdents dm := by
      intro x hx hmem
      apply List.mem_dedup.mpr
      apply List.mem_flatMap.mpr
      refine ⟨(req.name, inner), hdm, ?_⟩
      apply List.mem_flatMap.mpr
      refine ⟨entry, hentry, ?_⟩
      rw [hx]
      exact hmem
    cases hvars : d0.variants with
    | nil =>
      rw [hvars] at h
      obtain rfl : [d0] = defs := Except.ok.inj h
      have hdd : d = d0 := by simpa using hd
      subst hdd
      refine hbase _ rfl ?_
      rw [hval, hvars]
      simp
    | cons v vs =>
      rw [hvars] at h
      cases hext : req.extras with
      | nil =>
        rw [hext] at h
        obtain rfl : List.map (mergeVariant d0) (v :: vs) = defs := Except.ok.inj h
        rcases List.mem_map.mp hd with ⟨vv, hvv, rfl⟩
        refine hbase _ rfl ?_
        rw [hval, hvars]
        exact List.mem_map_of_mem _ hvv
      | cons e es =>
        rw [hext] at h
        have h2 : (match (v :: vs).find? (fun w => w.identifier = e) with
            | some w => Except.ok [mergeVariant d0 w]
            | none =>
              (Except.error WizErr.requestNotFound :
                Except WizErr (List Definition))) = Except.ok defs := h
        cases hfind : (v :: vs).find? (fun w => w.identifier = e) with
        | none =>
          rw [hfind] at h2
          exact Except.noConfusion h2
        | some vv =>
          rw [hfind] at h2
          obtain rfl : [mergeVariant d0 vv] = defs := Except.ok.inj h2
          have hdd : d = mergeVariant d0 vv := by simpa using hd
          subst hdd
          have hvvm : vv ∈ v :: vs := List.mem_of_find?_eq_some hfind
          refine hbase _ rfl ?_
          rw [hval, hvars]
          exact List.mem_map_of_mem _ hvvm

theorem nodesSub_trans {g1 g2 g3 : Graph} (h1 : nodesSub g1 g2)
    (h2 : nodesSub g2 g3) : nodesSub g1 g3 :=
  fun i h => h2 i (h1 i h)

/-- `zip l (map f l)` pairs each element with its image. -/
theorem zip_map_snd {α β : Type} (f : α → β) :
    ∀ (l : List α) (p : α × β), p ∈ l.zip (l.map f) →
      p.2 = f p.1 ∧ p.1 ∈ l := by
  intro l
  induction l with
  | nil => intro p hp; cases hp
  | cons a t ih =>
    intro p hp
    have hp2 : p ∈ (a, f a) :: t.zip (t.map f) := hp
    rcases List.mem_cons.mp hp2 with rfl | hrest
    · exact ⟨rfl, List.mem_cons_self a t⟩
    · obtain ⟨h1, h2⟩ := ih p hrest
      exact ⟨h1, List.mem_cons_of_mem a h2⟩

/-- `_create_link` never touches the node map. -/
theorem createLink_node (g : Graph) (i p : String) (req : Requirement)
    (w : Nat) (g' : Graph) (h : createLink g i p req w = .ok g') :
    g'.node_mapping = g.node_mapping := by
  simp only [createLink] at h
  split at h
  · exact Except.noConfusion h
  · obtain rfl := Except.ok.inj h
    rfl

/-- `add_parent` can only grow the node map. -/
theorem addParentG_sub (g : Graph) (i p : String) :
    nodesSub g (addParentG g i p) := by
  intro j hj
  unfold addParentG
  cases hn : dget g.node_mapping i with
  | none => exact hj
  | some n => exact dmem_dset_mono _ _ _ _ hj

/-- The bookkeeping tail of one loop iteration can only grow the node
map. -/
theorem updateBookkeep_sub (g : Graph) (d : Definition) (i : String)
    (req : Requirement) (parent : Option String) (w : Nat) (g' : Graph)
    (h : updateBookkeep g d i req parent w = .ok g') : nodesSub g g' := by
  simp only [updateBookkeep] at h
  cases hn : dget g.node_mapping i with
  | none =>
    simp only [hn] at h
    obtain rfl := Except.ok.inj h
    exact fun j hj => hj
  | some node =>
    simp only [hn] at h
    have hnode := createLink_node _ _ _ _ _ _ h
    intro j hj
    rw [hnode]
    exact addParentG_sub (defMapAdd g d.identifier
      (generateIdentifier node.definition)) i (parent.getD ROOT) j hj

/-- The per-definition loop can only grow the node map, given that the
nested recursion can only grow it. -/
theorem loopAux_sub (recur : RecurFn)
    (hm : ∀ g reqs parent g', recur g reqs parent = .ok g' → nodesSub g g') :
    ∀ pairs req parent weight g g',
      loopAux recur pairs req parent weight g = .ok g' → nodesSub g g' := by
  intro pairs
  induction pairs with
  | nil =>
    intro req parent w g g' h
    simp only [loopAux] at h
    obtain rfl := URes.ok.inj h
    exact fun j hj => hj
  | cons pr rest ih =>
    obtain ⟨d, i⟩ := pr
    intro req parent w g g' h
    simp only [loopAux] at h
    cases hmem : dmem g.node_mapping i with
    | true =>
      simp only [hmem, if_pos] at h
      cases hb : updateBookkeep g d i req parent w with
      | error e => rw [hb] at h; exact URes.noConfusion h
      | ok g2 =>
        rw [hb] at h
        exact nodesSub_trans (updateBookkeep_sub g d i req parent w g2 hb)
          (ih req parent w g2 g' h)
    | false =>
      simp only [hmem, Bool.false_eq_true, if_false] at h
      cases hreq : d.requirement with
      | none =>
        simp only [hreq] at h
        cases hb : updateBookkeep
            { g with node_mapping := dset g.node_mapping i ⟨d, []⟩ }
            d i req parent w with
        | error e => rw [hb] at h; exact URes.noConfusion h
        | ok g2 =>
          rw [hb] at h
          refine nodesSub_trans ?_ (nodesSub_trans
            (updateBookkeep_sub _ d i req parent w g2 hb)
            (ih req parent w g2 g' h))
          exact fun j hj => dmem_dset_mono _ _ _ _ hj
      | some reqs2 =>
        simp only [hreq] at h
        cases hr : recur
            { g with node_mapping := dset g.node_mapping i ⟨d, []⟩ }
            reqs2 (some i) with
        | fuelOut => rw [hr] at h; exact URes.noConfusion h
        | err e => rw [hr] at h; exact URes.noConfusion h
        | ok g2 =>
          rw [hr] at h
          have h2 : (match updateBookkeep g2 d i req parent w with
              | Except.error e => URes.err e
              | Except.ok g3 => loopAux recur rest req parent w g3) =
              URes.ok g' := h
          cases hb : updateBookkeep g2 d i req parent w with
          | error e => rw [hb] at h2; exact URes.noConfusion h2
          | ok g3 =>
            rw [hb] at h2
            refine nodesSub_trans (fun j hj => dmem_dset_mono _ _ _ _ hj)
              (nodesSub_trans (hm _ reqs2 (some i) g2 hr)
                (nodesSub_trans (updateBookkeep_sub g2 d i req parent w g3 hb)
                  (ih req parent w g3 g' h2)))

/-- The per-definition loop never runs out of fuel when every pair's
identifier lies in the registry universe, the nested recursion has the
stated fuel bound, and the missing count is below the fuel. -/
theorem loopAux_suff (recur : RecurFn) (dm : DefMap) (fuel : Nat)
    (hm : ∀ g reqs parent g', recur g reqs parent = .ok g' → nodesSub g g')
    (hs : ∀ g reqs parent, missingCount dm g < fuel →
      recur g reqs parent ≠ .fuelOut) :
    ∀ pairs req parent weight g,
      (∀ p ∈ pairs, p.2 ∈ registryIdents dm) →
      missingCount dm g < fuel + 1 →
      loopAux recur pairs req parent weight g ≠ .fuelOut := by
  intro pairs
  induction pairs with
  | nil =>
    intro req parent w g _ _ hc
    simp only [loopAux] at hc
    exact URes.noConfusion hc
  | cons pr rest ih =>
    obtain ⟨d, i⟩ := pr
    intro req parent w g hp hcount hc
    simp only [loopAux] at hc
    cases hmem : dmem g.node_mapping i with
    | true =>
      simp only [hmem, if_pos] at hc
      cases hb : updateBookkeep g d i req parent w with
      | error e => rw [hb] at hc; exact URes.noConfusion hc
      | ok g2 =>
        rw [hb] at hc
        have hle : missingCount dm g2 ≤ missingCount dm g :=
          missingCount_mono (updateBookkeep_sub g d i req parent w g2 hb)
        exact ih req parent w g2
          (fun p hp' => hp p (List.mem_cons_of_mem _ hp'))
          (by omega) hc
    | false =>
      simp only [hmem, Bool.false_eq_true, if_false] at hc
      have hreg : i ∈ registryIdents dm := hp (d, i) (List.mem_cons_self _ _)
      have hstrict : missingCount dm
          { g with node_mapping := dset g.node_mapping i ⟨d, []⟩ } < missingCount dm g :=
        missingCount_strict hmem hreg ⟨d, []⟩
      cases hreq : d.requirement with
      | none =>
        simp only [hreq] at hc
        cases hb : updateBookkeep
            { g with node_mapping := dset g.node_mapping i ⟨d, []⟩ }
            d i req parent w with
        | error e => rw [hb] at hc; exact URes.noConfusion hc
        | ok g2 =>
          rw [hb] at hc
          have hle : missingCount dm g2 ≤ missingCount dm
              { g with node_mapping := dset g.node_mapping i ⟨d, []⟩ } :=
            missingCount_mono (updateBookkeep_sub _ d i req parent w g2 hb)
          exact ih req parent w g2
            (fun p hp' => hp p (List.mem_cons_of_mem _ hp'))
            (by omega) hc
      | some reqs2 =>
        simp only [hreq] at hc
        cases hr : recur
            { g with node_mapping := dset g.node_mapping i ⟨d, []⟩ }
            reqs2 (some i) with
        | fuelOut =>
          exact hs _ reqs2 (some i) (by omega) hr
        | err e => rw [hr] at hc; exact URes.noConfusion hc
        | ok g2 =>
          rw [hr] at hc
          have hc2 : (match updateBookkeep g2 d i req parent w with
              | Except.error e => URes.err e
              | Except.ok g3 => loopAux recur rest req parent w g3) =
              URes.fuelOut := hc
          have hle1 : missingCount dm g2 ≤ missingCount dm
              { g with node_mapping := dset g.node_mapping i ⟨d, []⟩ } :=
            missingCount_mono (hm _ reqs2 (some i) g2 hr)
          cases hb : updateBookkeep g2 d i req parent w with
          | error e => rw [hb] at hc2; exact URes.noConfusion hc2
          | ok g3 =>
            rw [hb] at hc2
            have hle2 : missingCount dm g3 ≤ missingCount dm g2 :=
              missingCount_mono (updateBookkeep_sub g2 d i req parent w g3 hb)
            exact ih req parent w g3
              (fun p hp' => hp p (List.mem_cons_of_mem _ hp'))
              (by omega) hc2

/-- One `update_from_requirement` call can only grow the node map. -/
theorem oneAux_sub (recur : RecurFn) (dm : DefMap)
    (hm : ∀ g reqs parent g', recur g reqs parent = .ok g' → nodesSub g g')
    (g : Graph) (req : Requirement) (parent : Option String) (w : Nat)
    (g' : Graph) (h : oneAux recur dm g req parent w = .ok g') :
    nodesSub g g' := by
  simp only [oneAux] at h
  cases hq : getDefs req dm with
  | error e => rw [hq] at h; exact URes.noConfusion h
  | ok defs =>
    rw [hq] at h
    simp only at h
    split at h
    · exact fun j hj =>
        loopAux_sub recur hm _ req parent w _ g' h j hj
    · exact loopAux_sub recur hm _ req parent w _ g' h

/-- One `update_from_requirement` call never runs out of fuel when the
missing count is below the fuel bound. -/
theorem oneAux_suff (recur : RecurFn) (dm : DefMap) (fuel : Nat)
    (hm : ∀ g reqs parent g', recur g reqs parent = .ok g' → nodesSub g g')
    (hs : ∀ g reqs parent, missingCount dm g < fuel →
      recur g reqs parent ≠ .fuelOut)
    (g : Graph) (req : Requirement) (parent : Option String) (w : Nat)
    (hcount : missingCount dm g < fuel + 1) :
    oneAux recur dm g req parent w ≠ .fuelOut := by
  simp only [oneAux]
  cases hq : getDefs req dm with
  | error e => intro hc; exact URes.noConfusion hc
  | ok defs =>
    have hpairs : ∀ p ∈ defs.zip (defs.map generateIdentifier),
        p.2 ∈ registryIdents dm := by
      intro p hp
      obtain ⟨h1, h2⟩ := zip_map_snd generateIdentifier defs p hp
      rw [h1]
      exact getDefs_ident_mem hq p.1 h2
    simp only
    split
    · exact loopAux_suff recur dm fuel hm hs _ req parent w _ hpairs hcount
    · exact loopAux_suff recur dm fuel hm hs _ req parent w _ hpairs hcount

/-- `update_from_requirements` can only grow the node map. -/
theorem manyAux_sub (recur : RecurFn) (dm : DefMap)
    (hm : ∀ g reqs parent g', recur g reqs parent = .ok g' → nodesSub g g') :
    ∀ reqs g parent weight g',
      manyAux recur dm g reqs parent weight = .ok g' → nodesSub g g' := by
  intro reqs
  induction reqs with
  | nil =>
    intro g parent w g' h
    simp only [manyAux] at h
    obtain rfl := URes.ok.inj h
    exact fun j hj => hj
  | cons r rs ih =>
    intro g parent w g' h
    simp only [manyAux] at h
    cases ho : oneAux recur dm g r parent w with
    | fuelOut => rw [ho] at h; exact URes.noConfusion h
    | err e => rw [ho] at h; exact URes.noConfusion h
    | ok g2 =>
      rw [ho] at h
      exact nodesSub_trans (oneAux_sub recur dm hm g r parent w g2 ho)
        (ih g2 parent (w + 1) g' h)

/-- `update_from_requirements` never runs out of fuel when the missing
count is below the fuel bound. -/
theorem manyAux_suff (recur : RecurFn) (dm : DefMap) (fuel : Nat)
    (hm : ∀ g reqs parent g', recur g reqs parent = .ok g' → nodesSub g g')
    (hs : ∀ g reqs parent, missingCount dm g < fuel →
      recur g reqs parent ≠ .fuelOut) :
    ∀ reqs g parent weight, missingCount dm g < fuel + 1 →
      manyAux recur dm g reqs parent weight ≠ .fuelOut := by
  intro reqs
  induction reqs with
  | nil =>
    intro g parent w _ hc
    simp only [manyAux] at hc
    exact URes.noConfusion hc
  | cons r rs ih =>
    intro g parent w hcount hc
    simp only [manyAux] at hc
    cases ho : oneAux recur dm g r parent w with
    | fuelOut =>
      exact oneAux_suff recur dm fuel hm hs g r parent w hcount ho
    | err e => rw [ho] at hc; exact URes.noConfusion hc
    | ok g2 =>
      rw [ho] at hc
      have hle : missingCount dm g2 ≤ missingCount dm g :=
        missingCount_mono (oneAux_sub recur dm hm g r parent w g2 ho)
      exact ih g2 parent (w + 1) (by omega) hc

/-- Simultaneous fuel induction: the fuelled recursion can only grow the
node map, and fuel above the missing count never runs out. -/
theorem updateFsF_props (dm : DefMap) : ∀ fuel : Nat,
    (∀ g reqs parent g',
      updateFromRequirementsF fuel dm g reqs parent = .ok g' → nodesSub g g')
    ∧ (∀ g reqs parent, missingCount dm g < fuel →
      updateFromRequirementsF fuel dm g reqs parent ≠ .fuelOut) := by
  intro fuel
  induction fuel with
  | zero =>
    constructor
    · intro g reqs parent g' h
      simp only [updateFromRequirementsF] at h
      exact URes.noConfusion h
    · intro g reqs parent hcnt
      exact absurd hcnt (Nat.not_lt_zero _)
  | succ fuel ih =>
    constructor
    · intro g reqs parent g' h
      simp only [updateFromRequirementsF] at h
      exact manyAux_sub _ dm
        (fun g1 r1 p1 g1' hh => ih.1 g1 r1 p1 g1' hh) reqs g parent 1 g' h
    · intro g reqs parent hcnt
      simp only [updateFromRequirementsF]
      exact manyAux_suff _ dm fuel
        (fun g1 r1 p1 g1' hh => ih.1 g1 r1 p1 g1' hh)
        (fun g1 r1 p1 hlt => ih.2 g1 r1 p1 hlt) reqs g parent 1 hcnt

/-- C10: for every finite definition registry,
`Graph.update_from_requirements` and `Graph.update_from_requirement`
terminate even on cyclic registries: recursion into a node's own
requirements fires only when that node was just created, node creation
is bounded by the identifiers the registry can produce, and fuel equal
to that bound plus one is never exhausted. -/
theorem C10_update_terminates (dm : DefMap) (g : Graph)
    (req : Requirement) (reqs : List Requirement) (parent : Option String)
    (weight : Nat) :
    updateFromRequirementsF ((registryIdents dm).length + 1) dm g reqs parent
        ≠ .fuelOut
    ∧ updateFromRequirementF ((registryIdents dm).length + 1) dm g req parent
        weight ≠ .fuelOut := by
  have hfil := List.length_filter_le
    (fun i => ! dmem g.node_mapping i) (registryIdents dm)
  have hcount : missingCount dm g < (registryIdents dm).length + 1 := by
    simp only [missingCount]
    omega
  constructor
  · exact (updateFsF_props dm ((registryIdents dm).length + 1)).2
      g reqs parent hcount
  · exact oneAux_suff _ dm ((registryIdents dm).length + 1)
      (fun g1 r1 p1 g1' hh =>
        (updateFsF_props dm ((registryIdents dm).length + 1)).1 g1 r1 p1 g1' hh)
      (fun g1 r1 p1 hlt =>
        (updateFsF_props dm ((registryIdents dm).length + 1)).2 g1 r1 p1 hlt)
      g req parent weight (by omega)

end Wiz
